import Mathlib

/-!
Verification of the back-populate ("wikilink") subsystem of the
obsidian_knife repository, as a shallow embedding in Lean 4.

Rust strings are modelled as `List Char` (UTF-8 is order-preserving on
code points, so Rust's byte-lexicographic `String::cmp` coincides with
the character-lexicographic order on `List Char`, and `String::len`
in bytes is the sum of the characters' UTF-8 sizes).  `to_lowercase`
is modelled character-wise with `Char.toLower` (agreeing with Rust on
ASCII, which is all the repository's own tests exercise).  Rust's
`HashMap`s are modelled as functions built by the same insertion
sequence the code performs; `HashSet`-valued entries become duplicate-free
lists.  Rust's stable `sort_by` is modelled by a stable insertion sort
`sortBy` defined below.  Iteration order over a `HashMap` is unspecified
in Rust; where the code iterates a map (grouping matches by text or by
file) the model uses first-encounter key order, and the theorems proved
about such functions are stated up to permutation or via order-insensitive
counts wherever the map order could matter.
-/

/-- Rust `String` / `&str`, as its sequence of characters. -/
abbrev Str := List Char

/-- Model of Rust `str::to_lowercase` (character-wise; ASCII-faithful). -/
def toLowercase (s : Str) : Str := s.map Char.toLower

/-- Byte length of a string, Rust `String::len`. -/
def byteLen (s : Str) : Nat := (s.map Char.utf8Size).sum

/-- Stable insertion of `x` into `l`: `x` is placed before the first
element `y` with `le x y`. -/
def insertSorted (le : α → α → Bool) (x : α) : List α → List α
  | [] => [x]
  | y :: ys => if le x y then x :: y :: ys else y :: insertSorted le x ys

/-- Stable sort, the model of Rust `sort_by` / `sort_by_key` (and of
`sort_unstable_by` up to the unspecified order of equal elements). -/
def sortBy (le : α → α → Bool) : List α → List α
  | [] => []
  | x :: xs => insertSorted le x (sortBy le xs)

theorem insertSorted_perm (le : α → α → Bool) (x : α) (l : List α) :
    (insertSorted le x l).Perm (x :: l) := by
  induction l with
  | nil => simp [insertSorted]
  | cons y ys ih =>
    simp only [insertSorted]
    split
    · exact List.Perm.refl _
    · exact (List.Perm.cons y ih).trans (List.Perm.swap x y ys)

theorem sortBy_perm (le : α → α → Bool) (l : List α) :
    (sortBy le l).Perm l := by
  induction l with
  | nil => exact List.Perm.refl _
  | cons x xs ih =>
    exact (insertSorted_perm le x (sortBy le xs)).trans (List.Perm.cons x ih)

theorem mem_sortBy {le : α → α → Bool} {l : List α} {x : α} :
    x ∈ sortBy le l ↔ x ∈ l :=
  (sortBy_perm le l).mem_iff

theorem insertSorted_pairwise {le : α → α → Bool}
    (htr : ∀ a b c, le a b = true → le b c = true → le a c = true)
    (htot : ∀ a b, le a b = true ∨ le b a = true) {x : α} {l : List α}
    (h : List.Pairwise (fun a b => le a b = true) l) :
    List.Pairwise (fun a b => le a b = true) (insertSorted le x l) := by
  induction l with
  | nil => simp [insertSorted]
  | cons y ys ih =>
    simp only [insertSorted]
    have hy := (List.pairwise_cons.mp h).1
    have hys := (List.pairwise_cons.mp h).2
    by_cases hxy : le x y = true
    · rw [if_pos hxy]
      refine List.pairwise_cons.mpr ⟨?_, h⟩
      intro z hz
      rcases List.mem_cons.mp hz with hz | hz
      · exact hz ▸ hxy
      · exact htr x y z hxy (hy z hz)
    · rw [if_neg hxy]
      refine List.pairwise_cons.mpr ⟨?_, ih hys⟩
      intro z hz
      rcases List.mem_cons.mp ((insertSorted_perm le x ys).mem_iff.mp hz) with
        hz | hz
      · subst hz
        rcases htot y z with h' | h'
        · exact h'
        · exact absurd h' hxy
      · exact hy z hz

theorem sortBy_pairwise {le : α → α → Bool}
    (htr : ∀ a b c, le a b = true → le b c = true → le a c = true)
    (htot : ∀ a b, le a b = true ∨ le b a = true) (l : List α) :
    List.Pairwise (fun a b => le a b = true) (sortBy le l) := by
  induction l with
  | nil => simp [sortBy]
  | cons x xs ih => exact insertSorted_pairwise htr htot ih

/-- Fuel-driven worker for `groupByKey` (structural recursion so that the
kernel can evaluate it on concrete inputs; the fuel is always instantiated
with the length of the list). -/
def groupByKeyF [DecidableEq κ] (key : α → κ) : Nat → List α → List (κ × List α)
  | _, [] => []
  | 0, _ :: _ => []
  | fuel + 1, x :: xs =>
    (key x, x :: xs.filter (fun y => key y = key x)) ::
      groupByKeyF key fuel (xs.filter (fun y => ¬ (key y = key x)))

/-- Generic model of "group a list by a key" (the contents of the
`HashMap<K, Vec<V>>` grouping idiom): each produced group carries all
elements of the list sharing one key, in their original order; groups are
listed in first-encounter key order (the real `HashMap` iteration order
is unspecified). -/
def groupByKey [DecidableEq κ] (key : α → κ) (l : List α) :
    List (κ × List α) :=
  groupByKeyF key l.length l

theorem groupByKeyF_stable [DecidableEq κ] (key : α → κ) :
    ∀ f₁ f₂ l, l.length ≤ f₁ → l.length ≤ f₂ →
      groupByKeyF key f₁ l = groupByKeyF key f₂ l := by
  intro f₁
  induction f₁ with
  | zero =>
    intro f₂ l hl _
    cases l with
    | nil => cases f₂ <;> rfl
    | cons x xs => simp at hl
  | succ n ih =>
    intro f₂ l hl hl₂
    cases l with
    | nil => cases f₂ <;> rfl
    | cons x xs =>
      cases f₂ with
      | zero => simp at hl₂
      | succ m =>
        simp only [groupByKeyF]
        congr 1
        have hle : (xs.filter (fun y => ¬ (key y = key x))).length ≤ xs.length :=
          List.length_filter_le _ xs
        exact ih m _ (le_trans hle (Nat.le_of_succ_le_succ hl))
          (le_trans hle (Nat.le_of_succ_le_succ hl₂))

/-- The defining equations of `groupByKey` itself. -/
theorem groupByKey_nil [DecidableEq κ] (key : α → κ) :
    groupByKey key ([] : List α) = [] := rfl

theorem groupByKey_cons [DecidableEq κ] (key : α → κ) (x : α) (xs : List α) :
    groupByKey key (x :: xs) =
      (key x, x :: xs.filter (fun y => key y = key x)) ::
        groupByKey key (xs.filter (fun y => ¬ (key y = key x))) := by
  show (key x, x :: xs.filter (fun y => key y = key x)) ::
      groupByKeyF key xs.length (xs.filter (fun y => ¬ (key y = key x))) = _
  rw [groupByKeyF_stable key xs.length
    (xs.filter (fun y => ¬ (key y = key x))).length _
    (List.length_filter_le _ xs) (le_refl _)]
  rfl

/-- Strong induction principle tailored to `groupByKey`. -/
theorem groupByKey_induction [DecidableEq κ] (key : α → κ)
    (motive : List α → Prop) (h0 : motive [])
    (h1 : ∀ x xs, motive (xs.filter (fun y => ¬ (key y = key x))) →
      motive (x :: xs)) :
    ∀ l, motive l := by
  have main : ∀ n (l : List α), l.length ≤ n → motive l := by
    intro n
    induction n with
    | zero =>
      intro l hl
      cases l with
      | nil => exact h0
      | cons x xs => simp at hl
    | succ m ih =>
      intro l hl
      cases l with
      | nil => exact h0
      | cons x xs =>
        refine h1 x xs (ih _ ?_)
        exact le_trans (List.length_filter_le _ xs) (Nat.le_of_succ_le_succ hl)
  exact fun l => main l.length l (le_refl _)

theorem groupByKey_mem_content [DecidableEq κ] (key : α → κ) (l : List α) :
    ∀ k g, (k, g) ∈ groupByKey key l →
      g = l.filter (fun y => key y = k) ∧ ∃ x ∈ l, key x = k := by
  induction l using groupByKey_induction key with
  | h0 => intro k g h; simp [groupByKey_nil] at h
  | h1 x xs ih =>
    intro k g h
    rw [groupByKey_cons] at h
    rcases List.mem_cons.mp h with h | h
    · cases h
      constructor
      · simp [List.filter_cons]
      · exact ⟨x, List.mem_cons_self x xs, rfl⟩
    · rcases ih k g h with ⟨hg, x', hx', hkx'⟩
      have hx'mem : x' ∈ xs ∧ ¬(key x' = key x) := by
        have := List.mem_filter.mp hx'
        simpa using this
      have hkne : ¬ (k = key x) := by
        intro hk; exact hx'mem.2 (hk ▸ hkx')
      constructor
      · rw [hg, List.filter_filter]
        rw [List.filter_cons]
        simp only [decide_eq_true_eq]
        rw [if_neg (fun h' => hkne h'.symm)]
        apply List.filter_congr
        intro y _
        by_cases hy : key y = k
        · have hnx : ¬ (key y = key x) := fun he => hkne (hy.symm.trans he)
          simp [hy, hnx, hkne]
        · simp [hy]
      · exact ⟨x', List.mem_cons_of_mem x hx'mem.1, hkx'⟩

theorem groupByKey_keys_nodup [DecidableEq κ] (key : α → κ) (l : List α) :
    ((groupByKey key l).map Prod.fst).Nodup := by
  induction l using groupByKey_induction key with
  | h0 => simp [groupByKey_nil]
  | h1 x xs ih =>
    rw [groupByKey_cons]
    simp only [List.map_cons, List.nodup_cons]
    refine ⟨?_, ih⟩
    intro hmem
    rcases List.mem_map.mp hmem with ⟨⟨k, g⟩, hkg, hk⟩
    rcases groupByKey_mem_content key _ k g hkg with ⟨_, x', hx', hkx'⟩
    have := (List.mem_filter.mp hx').2
    simp only [decide_eq_true_eq] at this
    exact this (hkx'.trans hk)

theorem groupByKey_mem_keys [DecidableEq κ] (key : α → κ) (l : List α)
    (k : κ) : k ∈ (groupByKey key l).map Prod.fst ↔ ∃ x ∈ l, key x = k := by
  constructor
  · intro h
    rcases List.mem_map.mp h with ⟨⟨k', g⟩, hkg, hk⟩
    rcases groupByKey_mem_content key l k' g hkg with ⟨_, x, hx, hkx⟩
    exact ⟨x, hx, hk ▸ hkx⟩
  · revert l
    have main : ∀ l : List α, (∃ x ∈ l, key x = k) →
        k ∈ (groupByKey key l).map Prod.fst := by
      intro l
      induction l using groupByKey_induction key with
      | h0 => intro hex; simp at hex
      | h1 y ys ih =>
        intro hex
        rcases hex with ⟨x, hx, hkx⟩
        rw [groupByKey_cons]
        simp only [List.map_cons, List.mem_cons]
        by_cases hxy : k = key y
        · exact Or.inl hxy
        · right
          rcases List.mem_cons.mp hx with h | h
          · exact absurd (h ▸ hkx).symm hxy
          · refine ih ⟨x, List.mem_filter.mpr ⟨h, ?_⟩, hkx⟩
            simpa using fun he => hxy (hkx.symm.trans he)
    exact fun l => main l

theorem groupByKey_flatten_perm [DecidableEq κ] (key : α → κ) (l : List α) :
    ((groupByKey key l).map Prod.snd).flatten.Perm l := by
  induction l using groupByKey_induction key with
  | h0 => simp [groupByKey_nil]
  | h1 x xs ih =>
    rw [groupByKey_cons]
    simp only [List.map_cons, List.flatten_cons]
    have hsplit :
        (xs.filter (fun y => key y = key x) ++
          xs.filter (fun y => ¬ (key y = key x))).Perm xs := by
      have := List.filter_append_perm (fun y => decide (key y = key x)) xs
      simpa using this
    refine List.Perm.trans ?_ (List.Perm.cons x hsplit)
    simp only [List.cons_append]
    exact List.Perm.cons x (List.Perm.append_left _ ih)

/-! ## Exclusion-zone tracker (`src/markdown_file/text_excluder.rs`) -/

/-- `CodeBlockDelimiter` from `text_excluder.rs`. -/
inductive CodeBlockDelimiter
  | backtick
  | tripleBacktick
deriving DecidableEq

/-- `BlockLocation` from `text_excluder.rs`. -/
inductive BlockLocation
  | outside
  | inside
  | onClosingDelimiter
deriving DecidableEq

/-- `TryFrom<&str> for CodeBlockDelimiter`: a line whose trimmed text starts
with three backticks converts to `TripleBacktick`; everything else fails. -/
def strToDelimiter (s : Str) : Option CodeBlockDelimiter :=
  match (s.dropWhile Char.isWhitespace) with
  | '`' :: '`' :: '`' :: _ => some CodeBlockDelimiter.tripleBacktick
  | _ => none

/-- `TryFrom<char> for CodeBlockDelimiter`: only the backtick converts. -/
def charToDelimiter (c : Char) : Option CodeBlockDelimiter :=
  if c = '`' then some CodeBlockDelimiter.backtick else none

/-- `BlockTracker::update`.  The tracker's generic input is represented by
the result of its `TryInto<CodeBlockDelimiter>` conversion (`some d` when
the conversion succeeds, `none` when it fails); `tracked` is the tracker's
own delimiter.  Mirrors the `if let Ok(..)` / `else if` structure of the
source: a successful conversion to a delimiter other than the tracked one
leaves the state unchanged. -/
def BlockTracker.update (tracked : CodeBlockDelimiter) (loc : BlockLocation)
    (input : Option CodeBlockDelimiter) : BlockLocation :=
  match input with
  | some d =>
    if d = tracked then
      match loc with
      | BlockLocation.inside => BlockLocation.onClosingDelimiter
      | BlockLocation.outside => BlockLocation.inside
      | BlockLocation.onClosingDelimiter => BlockLocation.inside
    else loc
  | none =>
    if loc = BlockLocation.onClosingDelimiter then BlockLocation.outside
    else loc

/-- `BlockTracker::should_skip`. -/
def BlockTracker.should_skip (loc : BlockLocation) : Bool :=
  match loc with
  | BlockLocation.inside => true
  | BlockLocation.onClosingDelimiter => true
  | BlockLocation.outside => false

/-- Feeding a whole sequence of inputs to a tracker started in a given
state (the per-line / per-char loop that drives `update`). -/
def BlockTracker.run (tracked : CodeBlockDelimiter) (loc : BlockLocation)
    (inputs : List (Option CodeBlockDelimiter)) : BlockLocation :=
  inputs.foldl (BlockTracker.update tracked) loc

/-! ## Wikilink formatting (`src/wikilink_types.rs`) -/

/-- `strip_md_extension`: drop a trailing `".md"` if present. -/
def strip_md_extension (s : Str) : Str :=
  if s.reverse.take 3 = ['d', 'm', '.'] then s.take (s.length - 3) else s

/-- `ToWikilink::to_wikilink`: surround with brackets, stripping `.md`. -/
def to_wikilink (s : Str) : Str :=
  ('[' :: '[' :: strip_md_extension s) ++ [']', ']']

/-- `ToWikilink::to_aliased_wikilink target display_text`:
if the stripped target equals the display text (a case-SENSITIVE string
comparison in the source), produce the bare `[[target]]`; otherwise the
aliased `[[target|display_text]]`. -/
def to_aliased_wikilink (target display_text : Str) : Str :=
  let target_without_md := strip_md_extension target
  if target_without_md = display_text then to_wikilink target_without_md
  else ('[' :: '[' :: target_without_md) ++ ('|' :: display_text) ++ [']', ']']

/-! ## Corpus scan error propagation (`src/scan.rs`, `scan_markdown_files`) -/

/-- `scan_markdown_files`: scan every document, collecting the per-document
results; any single failing document aborts the whole scan with that error
(the source's `try_for_each(...)?` over the paths).  The per-document
scanner (`scan_markdown_file`, which performs file I/O and frontmatter
parsing) is abstracted as the function argument `scan_file`; the parallel
iteration of the source is modelled sequentially. -/
def scan_markdown_files {α ε β : Type} (scan_file : α → Except ε β) :
    List α → Except ε (List β)
  | [] => Except.ok []
  | p :: rest =>
    match scan_file p with
    | Except.error e => Except.error e
    | Except.ok b =>
      match scan_markdown_files scan_file rest with
      | Except.error e => Except.error e
      | Except.ok bs => Except.ok (b :: bs)

/-- A concrete per-document scanner used to witness the C8 theorem:
document 2 fails with "boom", every other document succeeds. -/
def c8ExampleScan (n : Nat) : Except Str Nat :=
  if n = 2 then Except.error ("boom".toList) else Except.ok n

/-- C4: for an exclusion-zone tracker started in `Outside`: the tracked
delimiter moves `Outside → Inside`, `Inside → OnClosingDelimiter` and
`OnClosingDelimiter → Inside`; a non-delimiter input resets
`OnClosingDelimiter` to `Outside` and leaves `Inside` and `Outside`
unchanged; `should_skip()` is true exactly in `Inside` and
`OnClosingDelimiter`; and across back-to-back fences (a close immediately
followed by an open) `should_skip()` never becomes false, as shown both
abstractly and on the tracker driven by the real line conversion. -/
theorem c4_block_tracker_transitions :
    (∀ t, BlockTracker.update t BlockLocation.outside (some t)
        = BlockLocation.inside) ∧
    (∀ t, BlockTracker.update t BlockLocation.inside (some t)
        = BlockLocation.onClosingDelimiter) ∧
    (∀ t, BlockTracker.update t BlockLocation.onClosingDelimiter (some t)
        = BlockLocation.inside) ∧
    (∀ t, BlockTracker.update t BlockLocation.onClosingDelimiter none
        = BlockLocation.outside) ∧
    (∀ t, BlockTracker.update t BlockLocation.inside none
        = BlockLocation.inside) ∧
    (∀ t, BlockTracker.update t BlockLocation.outside none
        = BlockLocation.outside) ∧
    (∀ l, BlockTracker.should_skip l = true ↔
        (l = BlockLocation.inside ∨ l = BlockLocation.onClosingDelimiter)) ∧
    (∀ t, BlockTracker.should_skip (BlockTracker.run t BlockLocation.outside
        [some t, none, some t, some t, some t]) = true) ∧
    (BlockTracker.should_skip
      (BlockTracker.run CodeBlockDelimiter.tripleBacktick BlockLocation.outside
        (["```rust", "let x = 1;", "```", "```", "more code"].map
          (fun s => strToDelimiter s.toList))) = true) := by
  refine ⟨?_, ?_, ?_, ?_, ?_, ?_, ?_, ?_, ?_⟩
  · intro t; cases t <;> rfl
  · intro t; cases t <;> rfl
  · intro t; cases t <;> rfl
  · intro t; cases t <;> rfl
  · intro t; cases t <;> rfl
  · intro t; cases t <;> rfl
  · intro l; cases l <;> simp [BlockTracker.should_skip]
  · intro t; cases t <;> rfl
  · decide

/-- C5 counterexample: the claim says the bare form `[[t]]` is produced
whenever the found text equals the target case-INsensitively (and the
name is not an alias).  The repository's formatter compares
case-SENSITIVELY: for the non-alias reference name `Test Link` and found
text `test link` (case-insensitively equal to the target), the code
produces the aliased form `[[Test Link|test link]]`, not `[[Test Link]]`
— exactly what the repository's own case-sensitivity tests expect. -/
theorem c5_counterexample :
    toLowercase ("test link".toList) = toLowercase ("Test Link".toList) ∧
    to_aliased_wikilink ("Test Link".toList) ("test link".toList)
      = ("[[Test Link|test link]]".toList) ∧
    to_aliased_wikilink ("Test Link".toList) ("test link".toList)
      ≠ ("[[Test Link]]".toList) := by
  refine ⟨by decide, by decide, by decide⟩

/-- C5 (amended): the formatted replacement is the bare `[[t]]` exactly
when the found text equals the `.md`-stripped target under a
case-SENSITIVE comparison (the alias flag plays no role in the
formatter); otherwise it is `[[t|d]]` with the found text `d` kept in its
original on-page casing in the display portion. -/
theorem c5_replacement_format (target display_text : Str) :
    (strip_md_extension target = display_text →
      to_aliased_wikilink target display_text
        = ("[[".toList) ++ strip_md_extension (strip_md_extension target)
            ++ ("]]".toList)) ∧
    (strip_md_extension target ≠ display_text →
      to_aliased_wikilink target display_text
        = ("[[".toList) ++ strip_md_extension target ++ ("|".toList)
            ++ display_text ++ ("]]".toList)) := by
  constructor
  · intro h
    simp only [to_aliased_wikilink, if_pos h, to_wikilink]
    rfl
  · intro h
    simp only [to_aliased_wikilink, if_neg h]
    simp

/-- C5 witness: the amended formatting rule evaluated at the repository's
own test inputs (`Test Link` exact-case → bare; alias `karen` for target
`Karen McCoy` → aliased with original casing). -/
theorem c5_replacement_format_witness :
    to_aliased_wikilink ("Test Link".toList) ("Test Link".toList)
      = ("[[Test Link]]".toList) ∧
    to_aliased_wikilink ("Karen McCoy".toList) ("karen".toList)
      = ("[[Karen McCoy|karen]]".toList) :=
  ⟨((c5_replacement_format ("Test Link".toList) ("Test Link".toList)).1
      (by decide)).trans (by decide),
   ((c5_replacement_format ("Karen McCoy".toList) ("karen".toList)).2
      (by decide)).trans (by decide)⟩

/-- C8: if scanning any single document fails, the whole scan fails: it
returns the originating error of the (first) failing document and produces
no partial list of results; and a successful scan requires every document
to have scanned successfully, producing one result per document. -/
theorem c8_scan_fail_fast {α ε β : Type} (scan_file : α → Except ε β) :
    (∀ paths : List α, (∃ p ∈ paths, ∃ e, scan_file p = Except.error e) →
      ∃ e, scan_markdown_files scan_file paths = Except.error e) ∧
    (∀ (l₁ : List α) (p : α) (l₂ : List α) (e : ε),
      (∀ q ∈ l₁, ∃ b, scan_file q = Except.ok b) →
      scan_file p = Except.error e →
      scan_markdown_files scan_file (l₁ ++ p :: l₂) = Except.error e) ∧
    (∀ paths : List α, (∀ p ∈ paths, ∃ b, scan_file p = Except.ok b) →
      ∃ bs, scan_markdown_files scan_file paths = Except.ok bs ∧
        bs.length = paths.length) := by
  refine ⟨?_, ?_, ?_⟩
  · intro paths
    induction paths with
    | nil => intro h; simp at h
    | cons p rest ih =>
      intro ⟨q, hq, e, he⟩
      rcases List.mem_cons.mp hq with hq | hq
      · subst hq
        exact ⟨e, by simp [scan_markdown_files, he]⟩
      · cases hsf : scan_file p with
        | error e' => exact ⟨e', by simp [scan_markdown_files, hsf]⟩
        | ok b =>
          rcases ih ⟨q, hq, e, he⟩ with ⟨e'', he''⟩
          exact ⟨e'', by simp [scan_markdown_files, hsf, he'']⟩
  · intro l₁ p l₂ e hok he
    induction l₁ with
    | nil => simp [scan_markdown_files, he]
    | cons q rest ih =>
      rcases hok q (List.mem_cons_self q rest) with ⟨b, hb⟩
      have := ih (fun r hr => hok r (List.mem_cons_of_mem q hr))
      simp [scan_markdown_files, hb, this]
  · intro paths hok
    induction paths with
    | nil => exact ⟨[], rfl, rfl⟩
    | cons p rest ih =>
      rcases hok p (List.mem_cons_self p rest) with ⟨b, hb⟩
      rcases ih (fun r hr => hok r (List.mem_cons_of_mem p hr)) with
        ⟨bs, hbs, hlen⟩
      exact ⟨b :: bs, by simp [scan_markdown_files, hb, hbs], by simp [hlen]⟩

/-- C8 witness: with a scanner that fails exactly on document 2, scanning
`[1, 2, 3]` returns document 2's error (and no partial result list). -/
theorem c8_scan_fail_fast_witness :
    scan_markdown_files c8ExampleScan [1, 2, 3]
      = Except.error ("boom".toList) :=
  (c8_scan_fail_fast c8ExampleScan).2.1 [1] 2 [3] ("boom".toList)
    (by intro q hq; simp at hq; subst hq; exact ⟨1, rfl⟩)
    (by rfl)

/-! ## Corpus ordering (`src/scan.rs`, `compare_wikilinks`) -/

/-- `Wikilink` (the spec's ReferenceName) from `src/wikilink_types.rs`. -/
structure Wikilink where
  display_text : Str
  target : Str
  is_alias : Bool
deriving DecidableEq

/-- Rust's `Ord::cmp` on `usize`. -/
def rustCmpNat (a b : Nat) : Ordering :=
  if a < b then Ordering.lt else if b < a then Ordering.gt else Ordering.eq

/-- Rust's `Ord::cmp` on `String` (byte-lexicographic, which on valid
UTF-8 equals the character-lexicographic order used here). -/
def rustCmpStr (a b : Str) : Ordering :=
  if a < b then Ordering.lt else if b < a then Ordering.gt else Ordering.eq

/-- `compare_wikilinks` from `src/scan.rs`:
`b.display_text.len().cmp(&a.display_text.len())`, then
`a.display_text.cmp(&b.display_text)`, then alias-before-non-alias,
then `a.target.cmp(&b.target)`. -/
def compare_wikilinks (a b : Wikilink) : Ordering :=
  Ordering.then (rustCmpNat (byteLen b.display_text) (byteLen a.display_text))
    (Ordering.then (rustCmpStr a.display_text b.display_text)
      (match a.is_alias, b.is_alias with
        | true, false => Ordering.lt
        | false, true => Ordering.gt
        | _, _ => rustCmpStr a.target b.target))

/-- The ordering exactly as the claim states it: display-text length
descending; then lexicographic by display text; for equal display texts
the alias entry first; remaining ties broken by target. -/
def specCompareWikilinks (a b : Wikilink) : Ordering :=
  if byteLen b.display_text < byteLen a.display_text then Ordering.lt
  else if byteLen a.display_text < byteLen b.display_text then Ordering.gt
  else if a.display_text < b.display_text then Ordering.lt
  else if b.display_text < a.display_text then Ordering.gt
  else if a.is_alias = true ∧ b.is_alias = false then Ordering.lt
  else if a.is_alias = false ∧ b.is_alias = true then Ordering.gt
  else if a.target < b.target then Ordering.lt
  else if b.target < a.target then Ordering.gt
  else Ordering.eq

/-- C3: the corpus comparator `compare_wikilinks` implements exactly the
claimed ordering: `a` precedes `b` when `a`'s display text is longer; for
equal lengths the display texts are compared lexicographically; for equal
display texts the alias entry precedes the non-alias entry; remaining
ties are broken by target. -/
theorem c3_compare_wikilinks_spec (a b : Wikilink) :
    compare_wikilinks a b = specCompareWikilinks a b := by
  unfold compare_wikilinks specCompareWikilinks rustCmpNat rustCmpStr
  by_cases h1 : byteLen b.display_text < byteLen a.display_text
  · simp [h1, Nat.lt_asymm h1, Ordering.then]
  · by_cases h2 : byteLen a.display_text < byteLen b.display_text
    · simp [h1, h2, Ordering.then]
    · simp only [if_neg h1, if_neg h2, Ordering.then]
      by_cases h3 : a.display_text < b.display_text
      · simp [h3, lt_asymm h3]
      · by_cases h4 : b.display_text < a.display_text
        · simp [h3, h4]
        · simp only [if_neg h3, if_neg h4]
          cases ha : a.is_alias <;> cases hb : b.is_alias <;>
            simp [Ordering.then]

/-! ## Ambiguity resolver (`src/back_populate.rs`,
`identify_and_remove_ambiguous_matches`) -/

/-- `BackPopulateMatch` (the spec's MatchRecord), fields as used by the
resolver and consolidation (`src/markdown_file_info`, reconstructed from
its uses and the repository's tests). -/
structure BackPopulateMatch where
  relative_path : Str
  line_number : Nat
  frontmatter_line_count : Nat
  line_text : Str
  found_text : Str
  replacement : Str
  position : Nat
  in_markdown_table : Bool
deriving DecidableEq, Inhabited

/-- `AmbiguousMatch` from `src/back_populate.rs` (the spec's
AmbiguousGroup; its `targets` vector collects a `HashSet`). -/
structure AmbiguousMatch where
  display_text : Str
  targets : List Str
  «matches» : List BackPopulateMatch
deriving DecidableEq

/-- The slice of `MarkdownFileInfo` the resolver touches: the file path
and its `matches.unambiguous` list. -/
structure MarkdownFileInfo where
  path : Str
  unambiguous : List BackPopulateMatch
deriving DecidableEq

/-- The grouping key of the resolver: `match_info.found_text.to_lowercase()`. -/
def foldedFoundText (m : BackPopulateMatch) : Str := toLowercase m.found_text

/-- Worker for the `target_map` loop of
`identify_and_remove_ambiguous_matches` (lines 75-85): for each wikilink,
insert `lower_target ↦ target` when the key is absent or the spelling is
already all-lowercase. -/
def buildTargetMapAux (m : Str → Option Str) : List Wikilink → (Str → Option Str)
  | [] => m
  | w :: rest =>
    let lower := toLowercase w.target
    let m' := if (m lower).isNone ∨ toLowercase w.target = w.target
      then (fun k => if k = lower then some w.target else m k)
      else m
    buildTargetMapAux m' rest

/-- The case-insensitive map from folded targets to canonical spellings. -/
def buildTargetMap (ws : List Wikilink) : Str → Option Str :=
  buildTargetMapAux (fun _ => none) ws

/-- The canonical spelling as the spec words it: the all-lowercase
spelling when one exists (which is the folded key itself), else the first
spelling seen. -/
def canonicalFor (ws : List Wikilink) (k : Str) : Option Str :=
  if ∃ w ∈ ws, toLowercase w.target = k ∧ toLowercase w.target = w.target
  then some k
  else (ws.find? (fun w => toLowercase w.target = k)).map Wikilink.target

theorem buildTargetMapAux_lookup :
    ∀ (ws : List Wikilink) (m : Str → Option Str) (k : Str),
      buildTargetMapAux m ws k =
        if ∃ w ∈ ws, toLowercase w.target = k ∧ toLowercase w.target = w.target
        then some k
        else Option.or (m k)
          ((ws.find? (fun w => toLowercase w.target = k)).map Wikilink.target) := by
  intro ws
  induction ws with
  | nil =>
    intro m k
    simp [buildTargetMapAux, Option.or]
    cases m k <;> rfl
  | cons w rest ih =>
    intro m k
    by_cases hk : toLowercase w.target = k
    · by_cases hlow : toLowercase w.target = w.target
      · -- all-lowercase spelling: overwrites, value is the key itself
        have hwt : w.target = k := hlow ▸ hk
        simp only [buildTargetMapAux, hlow, or_true, if_true]
        rw [ih]
        have hex : ∃ w' ∈ w :: rest,
            toLowercase w'.target = k ∧ toLowercase w'.target = w'.target :=
          ⟨w, List.mem_cons_self w rest, hk, hlow⟩
        rw [if_pos hex]
        by_cases hex' : ∃ w' ∈ rest,
            toLowercase w'.target = k ∧ toLowercase w'.target = w'.target
        · rw [if_pos hex']
        · rw [if_neg hex']
          simp [hk, hwt, Option.or]
      · -- not all-lowercase: inserts only when the key is absent
        simp only [buildTargetMapAux, hlow, or_false]
        have hfind : (w :: rest).find? (fun w' => toLowercase w'.target = k)
            = some w := by
          apply List.find?_cons_of_pos
          simp [hk]
        by_cases hmk : (m (toLowercase w.target)).isNone
        · rw [if_pos hmk]
          rw [ih]
          have hmk' : m k = none := by
            have := Option.isNone_iff_eq_none.mp hmk
            exact hk ▸ this
          by_cases hex' : ∃ w' ∈ rest,
              toLowercase w'.target = k ∧ toLowercase w'.target = w'.target
          · have hex : ∃ w' ∈ w :: rest,
                toLowercase w'.target = k ∧ toLowercase w'.target = w'.target := by
              rcases hex' with ⟨w', hw', h1, h2⟩
              exact ⟨w', List.mem_cons_of_mem w hw', h1, h2⟩
            rw [if_pos hex', if_pos hex]
          · have hex : ¬ ∃ w' ∈ w :: rest,
                toLowercase w'.target = k ∧ toLowercase w'.target = w'.target := by
              intro ⟨w', hw', h1, h2⟩
              rcases List.mem_cons.mp hw' with h | h
              · exact hlow (h ▸ h2)
              · exact hex' ⟨w', h, h1, h2⟩
            rw [if_neg hex', if_neg hex, hfind]
            simp [hk, hmk', Option.or]
        · rw [if_neg hmk]
          rw [ih]
          have hmk' : ∃ v, m k = some v := by
            cases hmkv : m k with
            | none => exact absurd (by rw [hk]; simp [hmkv]) hmk
            | some v => exact ⟨v, rfl⟩
          by_cases hex' : ∃ w' ∈ rest,
              toLowercase w'.target = k ∧ toLowercase w'.target = w'.target
          · have hex : ∃ w' ∈ w :: rest,
                toLowercase w'.target = k ∧ toLowercase w'.target = w'.target := by
              rcases hex' with ⟨w', hw', h1, h2⟩
              exact ⟨w', List.mem_cons_of_mem w hw', h1, h2⟩
            rw [if_pos hex', if_pos hex]
          · have hex : ¬ ∃ w' ∈ w :: rest,
                toLowercase w'.target = k ∧ toLowercase w'.target = w'.target := by
              intro ⟨w', hw', h1, h2⟩
              rcases List.mem_cons.mp hw' with h | h
              · exact hlow (h ▸ h2)
              · exact hex' ⟨w', h, h1, h2⟩
            rw [if_neg hex', if_neg hex, hfind]
            rcases hmk' with ⟨v, hv⟩
            simp [hv, Option.or]
    · -- the head wikilink folds to a different key: it cannot affect `k`
      simp only [buildTargetMapAux]
      rw [ih]
      have hfind : ((w :: rest).find? (fun w' => toLowercase w'.target = k))
          = rest.find? (fun w' => toLowercase w'.target = k) := by
        apply List.find?_cons_of_neg
        simp [hk]
      have hexiff : (∃ w' ∈ w :: rest,
          toLowercase w'.target = k ∧ toLowercase w'.target = w'.target) ↔
          (∃ w' ∈ rest,
            toLowercase w'.target = k ∧ toLowercase w'.target = w'.target) := by
        constructor
        · intro ⟨w', hw', h1, h2⟩
          rcases List.mem_cons.mp hw' with h | h
          · exact absurd (h ▸ h1) hk
          · exact ⟨w', h, h1, h2⟩
        · intro ⟨w', hw', h1, h2⟩
          exact ⟨w', List.mem_cons_of_mem w hw', h1, h2⟩
      by_cases hex : ∃ w' ∈ rest,
          toLowercase w'.target = k ∧ toLowercase w'.target = w'.target
      · rw [if_pos hex, if_pos (hexiff.mpr hex)]
      · rw [if_neg hex, if_neg (fun h => hex (hexiff.mp h)), hfind]
        congr 1
        by_cases hcond : (m (toLowercase w.target)).isNone ∨
            toLowercase w.target = w.target
        · simp only [if_pos hcond]
          exact if_neg (fun hkk => hk (Eq.symm hkk))
        · simp only [if_neg hcond]

/-- C2 support: `buildTargetMap` equals the spec-side canonical choice. -/
theorem buildTargetMap_eq_canonicalFor (ws : List Wikilink) (k : Str) :
    buildTargetMap ws k = canonicalFor ws k := by
  rw [buildTargetMap, buildTargetMapAux_lookup, canonicalFor]
  by_cases hex : ∃ w ∈ ws,
      toLowercase w.target = k ∧ toLowercase w.target = w.target
  · rw [if_pos hex, if_pos hex]
  · rw [if_neg hex, if_neg hex]
    simp [Option.or]

/-- Worker for the `display_text_map` loop of
`identify_and_remove_ambiguous_matches` (lines 88-99): for each wikilink
whose folded target is in the target map, add that canonical target to
the `HashSet` keyed by the folded display text (modelled as a
duplicate-free list; an absent key is the empty list, matching
`entry(..).or_default()`). -/
def buildDisplayMapAux (tm : Str → Option Str) (m : Str → List Str) :
    List Wikilink → (Str → List Str)
  | [] => m
  | w :: rest =>
    let m' := match tm (toLowercase w.target) with
      | some canon =>
        let ld := toLowercase w.display_text
        fun k => if k = ld
          then (if canon ∈ m ld then m ld else m ld ++ [canon])
          else m k
      | none => m
    buildDisplayMapAux tm m' rest

/-- The map from folded display texts to their sets of canonical targets. -/
def buildDisplayMap (ws : List Wikilink) (tm : Str → Option Str) :
    Str → List Str :=
  buildDisplayMapAux tm (fun _ => []) ws

/-- The composite the resolver really uses: display map over the target
map of the same corpus. -/
def displayTargets (ws : List Wikilink) : Str → List Str :=
  buildDisplayMap ws (buildTargetMap ws)

/-- The `targets.len() > 1` test of the resolver, as a predicate on the
corpus and a folded display text. -/
def classify_ambiguous (ws : List Wikilink) (d : Str) : Bool :=
  (displayTargets ws d).length > 1

theorem buildDisplayMapAux_mem (tm : Str → Option Str) :
    ∀ (ws : List Wikilink) (m : Str → List Str) (d : Str) (c : Str),
      c ∈ buildDisplayMapAux tm m ws d ↔
        c ∈ m d ∨ ∃ w ∈ ws, toLowercase w.display_text = d ∧
          tm (toLowercase w.target) = some c := by
  intro ws
  induction ws with
  | nil => intro m d c; simp [buildDisplayMapAux]
  | cons w rest ih =>
    intro m d c
    simp only [buildDisplayMapAux]
    cases htm : tm (toLowercase w.target) with
    | none =>
      rw [ih]
      constructor
      · intro h
        rcases h with h | ⟨w', hw', h1, h2⟩
        · exact Or.inl h
        · exact Or.inr ⟨w', List.mem_cons_of_mem w hw', h1, h2⟩
      · intro h
        rcases h with h | ⟨w', hw', h1, h2⟩
        · exact Or.inl h
        · rcases List.mem_cons.mp hw' with he | he
          · rw [he] at h2
            rw [htm] at h2
            cases h2
          · exact Or.inr ⟨w', he, h1, h2⟩
    | some canon =>
      rw [ih]
      simp only []
      by_cases hd : d = toLowercase w.display_text
      · rw [if_pos hd]
        constructor
        · intro h
          rcases h with h | ⟨w', hw', h1, h2⟩
          · by_cases hc : canon ∈ m (toLowercase w.display_text)
            · rw [if_pos hc] at h
              exact Or.inl (hd.symm ▸ h)
            · rw [if_neg hc] at h
              rcases List.mem_append.mp h with h | h
              · exact Or.inl (hd.symm ▸ h)
              · have hcc : c = canon := by simpa using h
                exact Or.inr ⟨w, List.mem_cons_self w rest, hd.symm,
                  by rw [htm, hcc]⟩
          · exact Or.inr ⟨w', List.mem_cons_of_mem w hw', h1, h2⟩
        · intro h
          rcases h with h | ⟨w', hw', h1, h2⟩
          · left
            by_cases hc : canon ∈ m (toLowercase w.display_text)
            · rw [if_pos hc]; exact hd ▸ h
            · rw [if_neg hc]; exact List.mem_append.mpr (Or.inl (hd ▸ h))
          · rcases List.mem_cons.mp hw' with he | he
            · left
              rw [he] at h1 h2
              rw [htm] at h2
              have hcc : canon = c := by injection h2
              by_cases hc : canon ∈ m (toLowercase w.display_text)
              · rw [if_pos hc]; exact hcc ▸ hc
              · rw [if_neg hc]
                exact List.mem_append.mpr
                  (Or.inr (List.mem_singleton.mpr hcc.symm))
            · exact Or.inr ⟨w', he, h1, h2⟩
      · rw [if_neg hd]
        constructor
        · intro h
          rcases h with h | ⟨w', hw', h1, h2⟩
          · exact Or.inl h
          · exact Or.inr ⟨w', List.mem_cons_of_mem w hw', h1, h2⟩
        · intro h
          rcases h with h | ⟨w', hw', h1, h2⟩
          · exact Or.inl h
          · rcases List.mem_cons.mp hw' with he | he
            · exfalso; exact hd (by rw [← h1, he])
            · exact Or.inr ⟨w', he, h1, h2⟩

theorem buildDisplayMapAux_nodup (tm : Str → Option Str) :
    ∀ (ws : List Wikilink) (m : Str → List Str),
      (∀ d, (m d).Nodup) → ∀ d, (buildDisplayMapAux tm m ws d).Nodup := by
  intro ws
  induction ws with
  | nil => intro m hm d; exact hm d
  | cons w rest ih =>
    intro m hm d
    simp only [buildDisplayMapAux]
    cases htm : tm (toLowercase w.target) with
    | none => exact ih m hm d
    | some canon =>
      apply ih
      intro d'
      by_cases hd : d' = toLowercase w.display_text
      · subst hd
        simp only [if_pos rfl]
        by_cases hc : canon ∈ m (toLowercase w.display_text)
        · rw [if_pos hc]; exact hm _
        · rw [if_neg hc]
          simp [List.nodup_append, hm _, hc]
      · simp only [if_neg hd]
        exact hm d'

theorem displayTargets_mem (ws : List Wikilink) (d c : Str) :
    c ∈ displayTargets ws d ↔
      ∃ w ∈ ws, toLowercase w.display_text = d ∧
        buildTargetMap ws (toLowercase w.target) = some c := by
  rw [displayTargets, buildDisplayMap, buildDisplayMapAux_mem]
  simp

theorem displayTargets_nodup (ws : List Wikilink) (d : Str) :
    (displayTargets ws d).Nodup := by
  rw [displayTargets, buildDisplayMap]
  exact buildDisplayMapAux_nodup _ ws _ (fun _ => List.nodup_nil) d

/-- A duplicate-free list whose elements are pairwise equal has at most
one element. -/
theorem nodup_all_eq_length_le_one {l : List Str} (hn : l.Nodup)
    (he : ∀ a ∈ l, ∀ b ∈ l, a = b) : l.length ≤ 1 := by
  cases l with
  | nil => simp
  | cons a rest =>
    cases rest with
    | nil => simp
    | cons b rest' =>
      exfalso
      have hab : a = b := he a (by simp) b (by simp)
      have := (List.nodup_cons.mp hn).1
      exact this (hab ▸ List.mem_cons_self b rest')

/-- The corpus of `test_case_insensitive_targets`: two non-alias names
whose targets differ only in letter case. -/
def c2ExampleWikilinks : List Wikilink :=
  [{ display_text := "Amazon".toList, target := "Amazon".toList,
     is_alias := false },
   { display_text := "amazon".toList, target := "amazon".toList,
     is_alias := false }]

/-- A mixed corpus: the case-variant pair above plus an unrelated
reference name with its own target. -/
def c2MixedWikilinks : List Wikilink :=
  c2ExampleWikilinks ++
    [{ display_text := "Other Page".toList, target := "Other Page".toList,
       is_alias := false }]

/-- C2: the canonical-target map assigns each case-folded target one
canonical spelling — the all-lowercase spelling when one exists
(necessarily the folded key itself), else the first spelling seen — and
consequently, in any corpus, a display text all of whose reference names
have one common folded target (case variants of one name) reaches at most
one canonical target, so its matches are not classified ambiguous. -/
theorem c2_canonical_target_map :
    (∀ (ws : List Wikilink) (k : Str),
      buildTargetMap ws k = canonicalFor ws k) ∧
    (∀ (ws : List Wikilink) (d : Str),
      (∀ w₁ ∈ ws, toLowercase w₁.display_text = d →
        ∀ w₂ ∈ ws, toLowercase w₂.display_text = d →
        toLowercase w₁.target = toLowercase w₂.target) →
      (displayTargets ws d).length ≤ 1 ∧ classify_ambiguous ws d = false) := by
  constructor
  · exact buildTargetMap_eq_canonicalFor
  · intro ws d hall
    have hle : (displayTargets ws d).length ≤ 1 := by
      apply nodup_all_eq_length_le_one (displayTargets_nodup ws d)
      intro a ha b hb
      rcases (displayTargets_mem ws d a).mp ha with ⟨w₁, hw₁, hd₁, ht₁⟩
      rcases (displayTargets_mem ws d b).mp hb with ⟨w₂, hw₂, hd₂, ht₂⟩
      have : toLowercase w₁.target = toLowercase w₂.target :=
        hall w₁ hw₁ hd₁ w₂ hw₂ hd₂
      rw [this] at ht₁
      rw [ht₁] at ht₂
      injection ht₂
    refine ⟨hle, ?_⟩
    simp only [classify_ambiguous, decide_eq_false_iff_not]
    omega

/-- C2 witness: in the mixed corpus (the `Amazon`/`amazon` case-variant
pair of the repository's `test_case_insensitive_targets` plus an
unrelated name), the display text `amazon` — reachable only from the
case variants — is not classified ambiguous, and the folded target
`amazon` resolves to the all-lowercase canonical spelling. -/
theorem c2_canonical_target_map_witness :
    classify_ambiguous c2MixedWikilinks ("amazon".toList) = false ∧
    buildTargetMap c2MixedWikilinks ("amazon".toList)
      = some ("amazon".toList) :=
  ⟨(c2_canonical_target_map.2 c2MixedWikilinks ("amazon".toList)
      (by decide)).2,
   by decide⟩

/-- The per-file body of `identify_and_remove_ambiguous_matches`
(lines 105-143): drain the file's matches, group them by folded
`found_text`, and move every group whose reachable target set has more
than one element into an `AmbiguousMatch` (carrying that set and the
group's records); all other groups — including those whose folded text is
absent from the display map, which the source logs a warning for — go
back into the file's `matches.unambiguous`. -/
def processFileMatches (dm : Str → List Str) (f : MarkdownFileInfo) :
    List AmbiguousMatch × MarkdownFileInfo :=
  let gs := groupByKey foldedFoundText f.unambiguous
  ((gs.filter (fun p => (dm p.1).length > 1)).map
      (fun p => { display_text := p.1, targets := dm p.1,
                  «matches» := p.2 : AmbiguousMatch }),
   { path := f.path,
     unambiguous :=
       ((gs.filter (fun p => ¬ ((dm p.1).length > 1))).map Prod.snd).flatten })

/-- `identify_and_remove_ambiguous_matches` (lines 72-149): build the
target and display maps from the corpus, process every file, collect the
ambiguous groups of all files, and sort them by display text. -/
def identify_and_remove_ambiguous_matches (ws : List Wikilink)
    (files : List MarkdownFileInfo) :
    List AmbiguousMatch × List MarkdownFileInfo :=
  let dm := displayTargets ws
  let processed := files.map (processFileMatches dm)
  (sortBy (fun a b => a.display_text ≤ b.display_text)
      ((processed.map Prod.fst).flatten),
   processed.map Prod.snd)

/-- The corpus of the repository's `test_identify_ambiguous_matches`:
the alias `Ed` maps to two distinct targets. -/
def c1ExampleWikilinks : List Wikilink :=
  [{ display_text := "Ed".toList, target := "Ed Barnes".toList,
     is_alias := true },
   { display_text := "Ed".toList, target := "Ed Stanfield".toList,
     is_alias := true }]

/-- A match of the ambiguous text `Ed` in a first document. -/
def c1Match1 : BackPopulateMatch :=
  { relative_path := "test1.md".toList, line_number := 1,
    frontmatter_line_count := 0, line_text := "Ed wrote this".toList,
    found_text := "Ed".toList, replacement := "[[Ed Barnes|Ed]]".toList,
    position := 0, in_markdown_table := false }

/-- A match of the same ambiguous text `Ed` in a second document. -/
def c1Match2 : BackPopulateMatch :=
  { relative_path := "test2.md".toList, line_number := 1,
    frontmatter_line_count := 0, line_text := "Ed said this".toList,
    found_text := "Ed".toList, replacement := "[[Ed Barnes|Ed]]".toList,
    position := 0, in_markdown_table := false }

/-- Two documents, each holding one match of the ambiguous text `Ed`. -/
def c1ExampleFiles : List MarkdownFileInfo :=
  [{ path := "test1.md".toList, unambiguous := [c1Match1] },
   { path := "test2.md".toList, unambiguous := [c1Match2] }]

/-- Counting pairs with a given first component in a list with
duplicate-free keys. -/
theorem countP_fst_nodup [DecidableEq κ] {β : Type} (c : κ → Bool) (d : κ) :
    ∀ l : List (κ × β), (l.map Prod.fst).Nodup →
      l.countP (fun p => decide (p.1 = d) && c p.1)
        = if c d = true ∧ d ∈ l.map Prod.fst then 1 else 0 := by
  intro l
  induction l with
  | nil => intro _; simp
  | cons p rest ih =>
    intro hn
    have hn' : (rest.map Prod.fst).Nodup := (List.nodup_cons.mp (by simpa using hn)).2
    have hp : p.1 ∉ rest.map Prod.fst := (List.nodup_cons.mp (by simpa using hn)).1
    rw [List.countP_cons]
    by_cases hd : p.1 = d
    · subst hd
      have hrest : rest.countP (fun q => decide (q.1 = p.1) && c q.1) = 0 := by
        rw [List.countP_eq_zero]
        intro q hq
        simp only [Bool.and_eq_true, decide_eq_true_eq]
        intro ⟨h1, _⟩
        exact hp (h1 ▸ List.mem_map_of_mem Prod.fst hq)
      rw [hrest]
      by_cases hc : c p.1 = true
      · simp [hc, hp]
      · simp [hc, hp]
    · have hfalse : (decide (p.1 = d) && c p.1) = false := by simp [hd]
      rw [hfalse, ih hn']
      have hmem : (d ∈ (p :: rest).map Prod.fst) ↔ (d ∈ rest.map Prod.fst) := by
        simp only [List.map_cons, List.mem_cons]
        constructor
        · intro h
          rcases h with h | h
          · exact absurd h.symm hd
          · exact h
        · exact Or.inr
      have hne : ¬ d = p.1 := fun h => hd h.symm
      have hcond : (c d = true ∧ d ∈ p.1 :: List.map Prod.fst rest)
          ↔ (c d = true ∧ d ∈ List.map Prod.fst rest) := by
        constructor
        · intro ⟨ha, hb⟩
          rcases List.mem_cons.mp hb with h | h
          · exact absurd h hne
          · exact ⟨ha, h⟩
        · intro ⟨ha, hb⟩
          exact ⟨ha, List.mem_cons_of_mem _ hb⟩
      rw [if_congr (and_congr_right (fun _ => hmem)) rfl rfl]
      simp

/-- Concatenating the groups of `groupByKey` selected by a key predicate
is, up to permutation, filtering the original list by that predicate on
each element's key. -/
theorem groupByKey_flatten_filter_perm [DecidableEq κ] (key : α → κ)
    (c : κ → Bool) (l : List α) :
    ((((groupByKey key l).filter (fun p => c p.1)).map Prod.snd).flatten).Perm
      (l.filter (fun x => c (key x))) := by
  induction l using groupByKey_induction key with
  | h0 => simp [groupByKey_nil]
  | h1 x xs ih =>
    rw [groupByKey_cons]
    by_cases hc : c (key x) = true
    · rw [List.filter_cons_of_pos (by simpa using hc)]
      simp only [List.map_cons, List.flatten_cons]
      rw [List.filter_cons_of_pos (by simpa using hc)]
      have h1 : (xs.filter (fun y => c (key y))).filter
          (fun y => key y = key x) = xs.filter (fun y => key y = key x) := by
        rw [List.filter_filter]
        apply List.filter_congr
        intro y _
        by_cases he : key y = key x
        · simp [he, hc]
        · simp [he]
      have h2 : (xs.filter (fun y => c (key y))).filter
            (fun y => ¬ (key y = key x))
          = (xs.filter (fun y => ¬ (key y = key x))).filter
            (fun y => c (key y)) := by
        rw [List.filter_filter, List.filter_filter]
        apply List.filter_congr
        intro y _
        exact Bool.and_comm _ _
      have hsplit := List.filter_append_perm
        (fun y => decide (key y = key x)) (xs.filter (fun y => c (key y)))
      have h3 : (xs.filter (fun y => c (key y))).filter
            (fun y => ¬ (key y = key x))
          = (xs.filter (fun y => c (key y))).filter
            (fun y => ! decide (key y = key x)) := by
        apply List.filter_congr
        intro y _
        simp
      simp only [List.cons_append]
      refine List.Perm.cons x ?_
      refine (List.Perm.append_left _ ih).trans ?_
      rw [← h1, ← h2, h3]
      exact hsplit
    · rw [List.filter_cons_of_neg (by simpa using hc)]
      rw [List.filter_cons_of_neg (by simpa using hc)]
      refine List.Perm.trans ih (List.Perm.of_eq ?_)
      rw [List.filter_filter]
      apply List.filter_congr
      intro y _
      by_cases he : key y = key x
      · simp [he, hc]
      · simp [he]

theorem processFile_count (dm : Str → List Str) (f : MarkdownFileInfo)
    (d : Str) :
    (processFileMatches dm f).1.countP (fun a => a.display_text = d)
      = if (dm d).length > 1 ∧ (∃ m ∈ f.unambiguous, foldedFoundText m = d)
        then 1 else 0 := by
  have h1 : (processFileMatches dm f).1
      = ((groupByKey foldedFoundText f.unambiguous).filter
          (fun p => (dm p.1).length > 1)).map
          (fun p => { display_text := p.1, targets := dm p.1,
                      «matches» := p.2 : AmbiguousMatch }) := rfl
  rw [h1, List.countP_map, List.countP_filter]
  have h2 : (fun (p : Str × List BackPopulateMatch) =>
        ((fun a : AmbiguousMatch => decide (a.display_text = d)) ∘
          (fun p => { display_text := p.1, targets := dm p.1,
                      «matches» := p.2 : AmbiguousMatch })) p &&
          decide ((dm p.1).length > 1))
      = (fun p => decide (p.1 = d) && (fun k => decide ((dm k).length > 1)) p.1) := by
    funext p
    rfl
  rw [h2, countP_fst_nodup (fun k => decide ((dm k).length > 1)) d _
    (groupByKey_keys_nodup _ _)]
  have h3 : (decide ((dm d).length > 1) = true ∧
        d ∈ (groupByKey foldedFoundText f.unambiguous).map Prod.fst)
      ↔ ((dm d).length > 1 ∧ ∃ m ∈ f.unambiguous, foldedFoundText m = d) := by
    rw [groupByKey_mem_keys]
    simp
  by_cases hcase : (dm d).length > 1 ∧ ∃ m ∈ f.unambiguous, foldedFoundText m = d
  · rw [if_pos (h3.mpr hcase), if_pos hcase]
  · rw [if_neg (fun hh => hcase (h3.mp hh)), if_neg hcase]

theorem processFile_retained_perm (dm : Str → List Str)
    (f : MarkdownFileInfo) :
    (processFileMatches dm f).2.unambiguous.Perm
      (f.unambiguous.filter
        (fun m => ¬ ((dm (foldedFoundText m)).length > 1))) := by
  have h1 : (processFileMatches dm f).2.unambiguous
      = (((groupByKey foldedFoundText f.unambiguous).filter
          (fun p => ¬ ((dm p.1).length > 1))).map Prod.snd).flatten := rfl
  rw [h1]
  exact groupByKey_flatten_filter_perm foldedFoundText
    (fun k => decide (¬ ((dm k).length > 1))) f.unambiguous

theorem processFile_amb_matches_perm (dm : Str → List Str)
    (f : MarkdownFileInfo) :
    ((processFileMatches dm f).1.map AmbiguousMatch.matches).flatten.Perm
      (f.unambiguous.filter
        (fun m => (dm (foldedFoundText m)).length > 1)) := by
  have h1 : (processFileMatches dm f).1.map AmbiguousMatch.matches
      = ((groupByKey foldedFoundText f.unambiguous).filter
          (fun p => (dm p.1).length > 1)).map Prod.snd := by
    show (List.map _ (List.filter _ _)).map _ = _
    rw [List.map_map]
    rfl
  rw [h1]
  exact groupByKey_flatten_filter_perm foldedFoundText
    (fun k => decide ((dm k).length > 1)) f.unambiguous

theorem processFile_conservation (dm : Str → List Str)
    (f : MarkdownFileInfo) :
    (((processFileMatches dm f).1.map AmbiguousMatch.matches).flatten ++
      (processFileMatches dm f).2.unambiguous).Perm f.unambiguous := by
  refine ((processFile_amb_matches_perm dm f).append
    (processFile_retained_perm dm f)).trans ?_
  have h1 : f.unambiguous.filter
        (fun m => ¬ ((dm (foldedFoundText m)).length > 1))
      = f.unambiguous.filter
        (fun m => ! decide ((dm (foldedFoundText m)).length > 1)) := by
    apply List.filter_congr
    intro m _
    exact decide_not
  rw [h1]
  exact List.filter_append_perm _ f.unambiguous

theorem identify_fst_eq (ws : List Wikilink) (files : List MarkdownFileInfo) :
    (identify_and_remove_ambiguous_matches ws files).1
      = sortBy (fun a b => a.display_text ≤ b.display_text)
          ((files.map (fun f =>
            (processFileMatches (displayTargets ws) f).1)).flatten) := by
  show sortBy _ ((List.map Prod.fst
    (files.map (processFileMatches (displayTargets ws)))).flatten) = _
  rw [List.map_map]
  rfl

theorem identify_snd_eq (ws : List Wikilink) (files : List MarkdownFileInfo) :
    (identify_and_remove_ambiguous_matches ws files).2
      = files.map (fun f => (processFileMatches (displayTargets ws) f).2) := by
  show List.map Prod.snd (files.map (processFileMatches (displayTargets ws)))
    = _
  rw [List.map_map]
  rfl

/-- Corpus-wide group counting: for each folded text `d`, the number of
emitted ambiguous groups with that display text equals, when `d` is
classified ambiguous, the number of documents containing a match of `d`
(one group per such document), and zero otherwise. -/
theorem identify_count (ws : List Wikilink) (files : List MarkdownFileInfo)
    (d : Str) :
    (identify_and_remove_ambiguous_matches ws files).1.countP
        (fun a => a.display_text = d)
      = if classify_ambiguous ws d = true
        then files.countP
          (fun f => f.unambiguous.any (fun m => foldedFoundText m = d))
        else 0 := by
  rw [identify_fst_eq]
  rw [(sortBy_perm _ _).countP_eq]
  rw [List.countP_flatten, List.map_map]
  have hmain : ∀ fs : List MarkdownFileInfo,
      (fs.map ((fun l => List.countP (fun a => decide (a.display_text = d)) l)
          ∘ (fun f => (processFileMatches (displayTargets ws) f).1))).sum
        = if classify_ambiguous ws d = true
          then fs.countP
            (fun f => f.unambiguous.any (fun m => foldedFoundText m = d))
          else 0 := by
    intro fs
    induction fs with
    | nil => simp
    | cons f rest ih =>
      simp only [List.map_cons, List.sum_cons, Function.comp]
      rw [ih, processFile_count, List.countP_cons]
      by_cases hA : classify_ambiguous ws d = true
      · have hlen : (displayTargets ws d).length > 1 := by
          have := hA
          simp only [classify_ambiguous, decide_eq_true_eq] at this
          exact this
        rw [if_pos hA, if_pos hA]
        by_cases hex : ∃ m ∈ f.unambiguous, foldedFoundText m = d
        · rw [if_pos ⟨hlen, hex⟩]
          have hany : (f.unambiguous.any
              (fun m => foldedFoundText m = d)) = true := by
            rw [List.any_eq_true]
            rcases hex with ⟨m, hm, he⟩
            exact ⟨m, hm, by simp [he]⟩
          simp [hany]
          omega
        · rw [if_neg (fun hh => hex hh.2)]
          have hany : (f.unambiguous.any
              (fun m => foldedFoundText m = d)) = false := by
            rw [Bool.eq_false_iff]
            intro hh
            rcases List.any_eq_true.mp hh with ⟨m, hm, he⟩
            exact hex ⟨m, hm, by simpa using he⟩
          simp [hany]
      · have hlen : ¬ ((displayTargets ws d).length > 1) := by
          intro hh
          exact hA (by simp [classify_ambiguous, hh])
        rw [if_neg hA, if_neg hA, if_neg (fun hh => hlen hh.1)]
  exact hmain files

/-- Every emitted `AmbiguousMatch` carries the reachable canonical-target
set of its display text (duplicate-free, with more than one element,
membership characterized against the corpus), and its records are exactly
one document's matches of that folded text. -/
theorem identify_amb_mem (ws : List Wikilink) (files : List MarkdownFileInfo)
    (a : AmbiguousMatch)
    (ha : a ∈ (identify_and_remove_ambiguous_matches ws files).1) :
    a.targets = displayTargets ws a.display_text ∧
    (displayTargets ws a.display_text).length > 1 ∧
    a.targets.Nodup ∧
    (∀ c, c ∈ a.targets ↔ ∃ w ∈ ws,
      toLowercase w.display_text = a.display_text ∧
      buildTargetMap ws (toLowercase w.target) = some c) ∧
    ∃ f ∈ files, a.matches = f.unambiguous.filter
        (fun m => foldedFoundText m = a.display_text) ∧
      a.matches ≠ [] := by
  rw [identify_fst_eq] at ha
  rw [mem_sortBy] at ha
  rw [List.mem_flatten] at ha
  rcases ha with ⟨part, hpart, hamem⟩
  rcases List.mem_map.mp hpart with ⟨f, hf, hfeq⟩
  subst hfeq
  have hproc : (processFileMatches (displayTargets ws) f).1
      = ((groupByKey foldedFoundText f.unambiguous).filter
          (fun p => (displayTargets ws p.1).length > 1)).map
          (fun p => { display_text := p.1, targets := displayTargets ws p.1,
                      «matches» := p.2 : AmbiguousMatch }) := rfl
  rw [hproc] at hamem
  rcases List.mem_map.mp hamem with ⟨p, hp, hpe⟩
  have hpf := List.mem_filter.mp hp
  rcases groupByKey_mem_content foldedFoundText f.unambiguous p.1 p.2
    (by simpa using hpf.1) with ⟨hcontent, x, hx, hkx⟩
  subst hpe
  have hcond : (displayTargets ws p.1).length > 1 := by
    have := hpf.2
    simpa using this
  refine ⟨rfl, hcond, displayTargets_nodup ws p.1, ?_, f, hf, ?_, ?_⟩
  · intro c
    exact displayTargets_mem ws p.1 c
  · exact hcontent
  · show p.2 ≠ []
    rw [hcontent]
    intro hempty
    have : x ∈ f.unambiguous.filter
        (fun y => foldedFoundText y = p.1) :=
      List.mem_filter.mpr ⟨hx, by simp [hkx]⟩
    rw [hempty] at this
    cases this

/-- Each document's retained list is (up to the unspecified map iteration
order) its original matches minus exactly the ambiguous-classified ones. -/
theorem identify_retained (ws : List Wikilink)
    (files : List MarkdownFileInfo) :
    List.Forall₂ (fun f g => g.path = f.path ∧
        g.unambiguous.Perm (f.unambiguous.filter
          (fun m => ¬ (classify_ambiguous ws (foldedFoundText m) = true))))
      files (identify_and_remove_ambiguous_matches ws files).2 := by
  rw [identify_snd_eq]
  induction files with
  | nil => exact List.Forall₂.nil
  | cons f rest ih =>
    refine List.Forall₂.cons ⟨rfl, ?_⟩ ih
    have hperm := processFile_retained_perm (displayTargets ws) f
    refine hperm.trans (List.Perm.of_eq ?_)
    apply List.filter_congr
    intro m _
    simp [classify_ambiguous]

/-- The records inside all emitted ambiguous groups are, as a multiset,
exactly the ambiguous-classified records of the whole corpus. -/
theorem identify_amb_flat (ws : List Wikilink)
    (files : List MarkdownFileInfo) :
    ((identify_and_remove_ambiguous_matches ws files).1.map
        AmbiguousMatch.matches).flatten.Perm
      (((files.map MarkdownFileInfo.unambiguous).flatten).filter
        (fun m => classify_ambiguous ws (foldedFoundText m) = true)) := by
  rw [identify_fst_eq]
  have hmain : ∀ fs : List MarkdownFileInfo,
      (((fs.map (fun f =>
          (processFileMatches (displayTargets ws) f).1)).flatten.map
            AmbiguousMatch.matches).flatten).Perm
        (((fs.map MarkdownFileInfo.unambiguous).flatten).filter
          (fun m => classify_ambiguous ws (foldedFoundText m) = true)) := by
    intro fs
    induction fs with
    | nil => simp
    | cons f rest ih =>
      simp only [List.map_cons, List.flatten_cons, List.map_append,
        List.flatten_append, List.filter_append]
      refine List.Perm.append ?_ ih
      refine (processFile_amb_matches_perm (displayTargets ws) f).trans
        (List.Perm.of_eq ?_)
      apply List.filter_congr
      intro m _
      simp [classify_ambiguous]
  have hsort := (sortBy_perm (fun a b : AmbiguousMatch =>
    a.display_text ≤ b.display_text)
    ((files.map (fun f =>
      (processFileMatches (displayTargets ws) f).1)).flatten)).map
    AmbiguousMatch.matches
  exact (hsort.flatten).trans (hmain files)

/-- The retained lists of all documents are, as a multiset, exactly the
non-ambiguous-classified records of the whole corpus. -/
theorem identify_retained_flat (ws : List Wikilink)
    (files : List MarkdownFileInfo) :
    (((identify_and_remove_ambiguous_matches ws files).2.map
        MarkdownFileInfo.unambiguous).flatten).Perm
      (((files.map MarkdownFileInfo.unambiguous).flatten).filter
        (fun m => ¬ (classify_ambiguous ws (foldedFoundText m) = true))) := by
  rw [identify_snd_eq]
  induction files with
  | nil => simp
  | cons f rest ih =>
    simp only [List.map_cons, List.flatten_cons, List.filter_append]
    refine List.Perm.append ?_ ih
    have hperm := processFile_retained_perm (displayTargets ws) f
    refine hperm.trans (List.Perm.of_eq ?_)
    apply List.filter_congr
    intro m _
    simp [classify_ambiguous]

/-- C1 counterexample: the claim says a corpus-wide group of matches with
one folded text yields exactly one AmbiguousGroup.  With the `Ed` corpus
(two targets) and two documents each containing one `Ed` match, the
resolver emits TWO ambiguous groups for the single folded text `ed` (one
per document), so "exactly one AmbiguousGroup" per corpus-wide group is
false. -/
theorem c1_counterexample :
    ((identify_and_remove_ambiguous_matches c1ExampleWikilinks
        c1ExampleFiles).1.map AmbiguousMatch.display_text)
      = ["ed".toList, "ed".toList] ∧
    (identify_and_remove_ambiguous_matches c1ExampleWikilinks
        c1ExampleFiles).1.length ≠ 1 := by
  refine ⟨by decide, by decide⟩

/-- C1 (amended): grouping is per document: for each folded text `d`, the
resolver emits one `AmbiguousMatch` per document containing a match of
`d` exactly when the reachable canonical-target set of `d` has more than
one element, and none otherwise; every emitted group carries that
reachable set (duplicate-free, characterized against the corpus) and one
document's complete `d`-group of records; groups with a reachable set of
size at most one (or an absent folded text) are retained unchanged in
their document; and the classification — the count of emitted groups per
folded text — is invariant under reordering of the documents and of any
document's matches. -/
theorem c1_ambiguity_classification (ws : List Wikilink)
    (files : List MarkdownFileInfo) :
    (∀ d, (identify_and_remove_ambiguous_matches ws files).1.countP
        (fun a => a.display_text = d)
      = if classify_ambiguous ws d = true
        then files.countP
          (fun f => f.unambiguous.any (fun m => foldedFoundText m = d))
        else 0) ∧
    (∀ a ∈ (identify_and_remove_ambiguous_matches ws files).1,
      a.targets = displayTargets ws a.display_text ∧
      (displayTargets ws a.display_text).length > 1 ∧
      a.targets.Nodup ∧
      (∀ c, c ∈ a.targets ↔ ∃ w ∈ ws,
        toLowercase w.display_text = a.display_text ∧
        buildTargetMap ws (toLowercase w.target) = some c) ∧
      ∃ f ∈ files, a.matches = f.unambiguous.filter
          (fun m => foldedFoundText m = a.display_text) ∧ a.matches ≠ []) ∧
    (List.Forall₂ (fun f g => g.path = f.path ∧
        g.unambiguous.Perm (f.unambiguous.filter
          (fun m => ¬ (classify_ambiguous ws (foldedFoundText m) = true))))
      files (identify_and_remove_ambiguous_matches ws files).2) ∧
    (∀ files', files.Perm files' → ∀ d,
      (identify_and_remove_ambiguous_matches ws files).1.countP
          (fun a => a.display_text = d)
        = (identify_and_remove_ambiguous_matches ws files').1.countP
          (fun a => a.display_text = d)) ∧
    (∀ files', List.Forall₂
        (fun f g => f.path = g.path ∧ f.unambiguous.Perm g.unambiguous)
        files files' → ∀ d,
      (identify_and_remove_ambiguous_matches ws files).1.countP
          (fun a => a.display_text = d)
        = (identify_and_remove_ambiguous_matches ws files').1.countP
          (fun a => a.display_text = d)) := by
  refine ⟨identify_count ws files, identify_amb_mem ws files,
    identify_retained ws files, ?_, ?_⟩
  · intro files' hperm d
    rw [identify_count ws files d, identify_count ws files' d]
    rw [hperm.countP_eq]
  · intro files' hfa d
    rw [identify_count ws files d, identify_count ws files' d]
    have hcount : ∀ {fs gs : List MarkdownFileInfo},
        List.Forall₂
          (fun f g => f.path = g.path ∧ f.unambiguous.Perm g.unambiguous)
          fs gs →
        fs.countP (fun f => f.unambiguous.any
            (fun m => foldedFoundText m = d))
          = gs.countP (fun f => f.unambiguous.any
            (fun m => foldedFoundText m = d)) := by
      intro fs gs h
      induction h with
      | nil => rfl
      | cons hfg _ ih =>
        rw [List.countP_cons, List.countP_cons, ih]
        congr 1
        have hany : ∀ {u v : List BackPopulateMatch}, u.Perm v →
            u.any (fun m => foldedFoundText m = d)
              = v.any (fun m => foldedFoundText m = d) := by
          intro u v hp
          rw [Bool.eq_iff_iff, List.any_eq_true, List.any_eq_true]
          constructor
          · intro ⟨m, hm, he⟩; exact ⟨m, hp.mem_iff.mp hm, he⟩
          · intro ⟨m, hm, he⟩; exact ⟨m, hp.mem_iff.mpr hm, he⟩
        rw [hany hfg.2]
    rw [hcount hfa]

/-- C1 witness: on the two-document `Ed` corpus the classification rule
counts two emitted groups for the folded text `ed` (one per document),
and the count is unchanged when the documents are processed in the
opposite order. -/
theorem c1_ambiguity_classification_witness :
    ((identify_and_remove_ambiguous_matches c1ExampleWikilinks
        c1ExampleFiles).1.countP
        (fun a => a.display_text = "ed".toList)) = 2 ∧
    ((identify_and_remove_ambiguous_matches c1ExampleWikilinks
        c1ExampleFiles).1.countP
        (fun a => a.display_text = "ed".toList))
      = ((identify_and_remove_ambiguous_matches c1ExampleWikilinks
        c1ExampleFiles.reverse).1.countP
        (fun a => a.display_text = "ed".toList)) := by
  constructor
  · rw [(c1_ambiguity_classification c1ExampleWikilinks
      c1ExampleFiles).1 ("ed".toList)]
    decide
  · exact (c1_ambiguity_classification c1ExampleWikilinks
      c1ExampleFiles).2.2.2.1 c1ExampleFiles.reverse (by decide)
      ("ed".toList)

/-- C9: the resolver conserves match records: the multiset of records
inside all emitted ambiguous groups together with all retained
per-document records equals the multiset of records present before the
call (nothing dropped, nothing duplicated); and every record that is not
classified ambiguous — including one whose folded text is absent from
the display map — stays in its own document's list. -/
theorem c9_match_conservation (ws : List Wikilink)
    (files : List MarkdownFileInfo) :
    ((((identify_and_remove_ambiguous_matches ws files).1.map
          AmbiguousMatch.matches).flatten) ++
        (((identify_and_remove_ambiguous_matches ws files).2.map
          MarkdownFileInfo.unambiguous).flatten)).Perm
      ((files.map MarkdownFileInfo.unambiguous).flatten) ∧
    List.Forall₂ (fun f g => ∀ m ∈ f.unambiguous,
        ¬ (classify_ambiguous ws (foldedFoundText m) = true) →
        m ∈ g.unambiguous)
      files (identify_and_remove_ambiguous_matches ws files).2 := by
  constructor
  · refine ((identify_amb_flat ws files).append
      (identify_retained_flat ws files)).trans ?_
    have h1 : ((files.map MarkdownFileInfo.unambiguous).flatten).filter
          (fun m => ¬ (classify_ambiguous ws (foldedFoundText m) = true))
        = ((files.map MarkdownFileInfo.unambiguous).flatten).filter
          (fun m => ! decide
            (classify_ambiguous ws (foldedFoundText m) = true)) := by
      apply List.filter_congr
      intro m _
      exact decide_not
    rw [h1]
    exact List.filter_append_perm _ _
  · have h := identify_retained ws files
    refine h.imp ?_
    intro f g hfg m hm hcl
    refine hfg.2.mem_iff.mpr ?_
    exact List.mem_filter.mpr ⟨hm, by simpa using hcl⟩

/-- C9 witness: on the two-document `Ed` corpus, the groups' records plus
the retained records are exactly the two original records. -/
theorem c9_match_conservation_witness :
    ((((identify_and_remove_ambiguous_matches c1ExampleWikilinks
          c1ExampleFiles).1.map AmbiguousMatch.matches).flatten) ++
        (((identify_and_remove_ambiguous_matches c1ExampleWikilinks
          c1ExampleFiles).2.map
          MarkdownFileInfo.unambiguous).flatten)).Perm
      [c1Match1, c1Match2] :=
  ((c9_match_conservation c1ExampleWikilinks c1ExampleFiles).1).trans
    (List.Perm.of_eq (by decide))

/-! ## Consolidation (`src/back_populate.rs`, `consolidate_matches`) -/

/-- `LineInfo` from `src/back_populate.rs`. -/
structure LineInfo where
  line_number : Nat
  line_text : Str
  positions : List Nat
deriving DecidableEq, Inhabited

/-- `ConsolidatedMatch` from `src/back_populate.rs`. -/
structure ConsolidatedMatch where
  file_path : Str
  line_info : List LineInfo
  replacement : Str
  in_markdown_table : Bool
deriving DecidableEq, Inhabited

/-- The last component of a `/`-separated path (`Path::file_name`,
for paths without trailing separators). -/
def lastPathComponent (s : Str) : Str :=
  s.foldl (fun acc c => if c = '/' then [] else acc ++ [c]) []

/-- `Path::file_stem().unwrap_or("")`: the file name with the part after
its last `.` removed (a leading `.` does not begin an extension). -/
def fileStem (s : Str) : Str :=
  match lastPathComponent s with
  | [] => []
  | c :: rest =>
    if '.' ∈ rest
    then c :: ((rest.reverse.dropWhile (fun x => ¬ (x = '.'))).tail).reverse
    else c :: rest

/-- The `or_insert(LineInfo { .. })` + `positions.push(..)` accumulation:
the line number (raw plus frontmatter offset) and text come from the
group's first match, the positions from every match of the group. -/
def mkLineInfo (g : List BackPopulateMatch) : LineInfo :=
  match g with
  | [] => default
  | h :: _ =>
    { line_number := h.line_number + h.frontmatter_line_count,
      line_text := h.line_text,
      positions := g.map BackPopulateMatch.position }

/-- `consolidate_matches` from `src/back_populate.rs` (lines 166-225):
group by `(relative_path, line_number)` into `line_map` and by
`relative_path` into `file_info` (whose value — replacement and table
flag — is the last insertion's, i.e. the file's last match); for each
file collect its lines, sort them by stored line number, and sort the
consolidated entries by file stem (`file_a.cmp(file_b)`, a
case-SENSITIVE comparison). -/
def consolidate_matches (ms : List BackPopulateMatch) :
    List ConsolidatedMatch :=
  let lineGroups := groupByKey
    (fun m => (m.relative_path, m.line_number)) ms
  let fileGroups := groupByKey (fun m => m.relative_path) ms
  let result := fileGroups.map (fun p =>
    let lastm := p.2.getLastD default
    let lines := (lineGroups.filter (fun q => q.1.1 = p.1)).map
      (fun q => mkLineInfo q.2)
    { file_path := p.1,
      line_info := sortBy (fun a b => a.line_number ≤ b.line_number) lines,
      replacement := lastm.replacement,
      in_markdown_table := lastm.in_markdown_table })
  sortBy (fun a b => fileStem a.file_path ≤ fileStem b.file_path) result

theorem mkLineInfo_positions {g : List BackPopulateMatch} (h : g ≠ []) :
    (mkLineInfo g).positions = g.map BackPopulateMatch.position := by
  cases g with
  | nil => exact absurd rfl h
  | cons a t => rfl

/-- A match of one document (`apple.md`). -/
def c7MatchA : BackPopulateMatch :=
  { relative_path := "apple.md".toList, line_number := 1,
    frontmatter_line_count := 0, line_text := "x here".toList,
    found_text := "x".toList, replacement := "[[x]]".toList,
    position := 0, in_markdown_table := false }

/-- A match of another document (`Banana.md`), whose stem compares
smaller than `apple` byte-wise but larger case-insensitively. -/
def c7MatchB : BackPopulateMatch :=
  { relative_path := "Banana.md".toList, line_number := 1,
    frontmatter_line_count := 0, line_text := "x too".toList,
    found_text := "x".toList, replacement := "[[x]]".toList,
    position := 0, in_markdown_table := false }

/-- C7 counterexample: the claim says consolidated groups are sorted by
file stem compared case-INsensitively.  The source sorts with
`file_a.cmp(file_b)` — a case-SENSITIVE byte comparison — so for the
documents `apple.md` and `Banana.md` the output order is
`[Banana, apple]`, whose folded stems `[banana, apple]` are in
descending, not ascending, order (`apple < banana`). -/
theorem c7_counterexample :
    ((consolidate_matches [c7MatchA, c7MatchB]).map
        (fun c => toLowercase (fileStem c.file_path)))
      = ["banana".toList, "apple".toList] ∧
    ("apple".toList : Str) < "banana".toList := by
  refine ⟨by decide, by decide⟩

/-- The single-file shape of each consolidated entry. -/
def mkConsolidated (ms : List BackPopulateMatch)
    (p : Str × List BackPopulateMatch) : ConsolidatedMatch :=
  { file_path := p.1,
    line_info := sortBy (fun a b => a.line_number ≤ b.line_number)
      (((groupByKey (fun m => (m.relative_path, m.line_number)) ms).filter
        (fun q => q.1.1 = p.1)).map (fun q => mkLineInfo q.2)),
    replacement := (p.2.getLastD default).replacement,
    in_markdown_table := (p.2.getLastD default).in_markdown_table }

theorem consolidate_matches_eq (ms : List BackPopulateMatch) :
    consolidate_matches ms
      = sortBy (fun a b => fileStem a.file_path ≤ fileStem b.file_path)
          ((groupByKey (fun m => m.relative_path) ms).map
            (mkConsolidated ms)) := rfl

/-- C7 (amended): `consolidate_matches` groups records by document path
and line number, merging all byte offsets of one (document, line) pair
into a single entry; each document yields one consolidated group (paths
are distinct, and exactly the input paths); within a group the line
entries are sorted by ascending stored line number; and the groups are
sorted by file stem compared case-SENSITIVELY (byte order), not
case-insensitively. -/
theorem c7_consolidate_properties (ms : List BackPopulateMatch) :
    List.Pairwise (fun a b => fileStem a.file_path ≤ fileStem b.file_path)
      (consolidate_matches ms) ∧
    (∀ c ∈ consolidate_matches ms,
      List.Pairwise (fun a b => a.line_number ≤ b.line_number)
        c.line_info) ∧
    ((consolidate_matches ms).map ConsolidatedMatch.file_path).Nodup ∧
    (∀ p, p ∈ (consolidate_matches ms).map ConsolidatedMatch.file_path ↔
      ∃ m ∈ ms, m.relative_path = p) ∧
    (∀ c ∈ consolidate_matches ms, ∀ li ∈ c.line_info,
      ∃ ln, li.positions = (ms.filter (fun m =>
          m.relative_path = c.file_path ∧ m.line_number = ln)).map
          BackPopulateMatch.position ∧ li.positions ≠ []) ∧
    (∀ m ∈ ms, ∃ c ∈ consolidate_matches ms,
      c.file_path = m.relative_path ∧ ∃ li ∈ c.line_info,
        li.positions = (ms.filter (fun m' =>
          m'.relative_path = m.relative_path ∧
          m'.line_number = m.line_number)).map
          BackPopulateMatch.position ∧
        m.position ∈ li.positions) := by
  have hmem_out : ∀ c, c ∈ consolidate_matches ms ↔
      ∃ p ∈ groupByKey (fun m => m.relative_path) ms,
        c = mkConsolidated ms p := by
    intro c
    rw [consolidate_matches_eq, mem_sortBy, List.mem_map]
    constructor
    · intro ⟨p, hp, he⟩; exact ⟨p, hp, he.symm⟩
    · intro ⟨p, hp, he⟩; exact ⟨p, hp, he.symm⟩
  have hline_mem : ∀ p li,
      li ∈ (mkConsolidated ms p).line_info ↔
      ∃ q ∈ (groupByKey (fun m => (m.relative_path, m.line_number)) ms),
        q.1.1 = p.1 ∧ li = mkLineInfo q.2 := by
    intro p li
    show li ∈ sortBy _ _ ↔ _
    rw [mem_sortBy, List.mem_map]
    constructor
    · intro ⟨q, hq, he⟩
      have := List.mem_filter.mp hq
      exact ⟨q, this.1, by simpa using this.2, he.symm⟩
    · intro ⟨q, hq, hq1, he⟩
      exact ⟨q, List.mem_filter.mpr ⟨hq, by simpa using hq1⟩, he.symm⟩
  have hgroup_pos : ∀ q ∈ (groupByKey
        (fun m => (m.relative_path, m.line_number)) ms),
      (mkLineInfo q.2).positions = (ms.filter (fun m' =>
          m'.relative_path = q.1.1 ∧ m'.line_number = q.1.2)).map
          BackPopulateMatch.position ∧
        (mkLineInfo q.2).positions ≠ [] := by
    intro q hq
    rcases groupByKey_mem_content
      (fun m => (m.relative_path, m.line_number)) ms q.1 q.2 hq with
      ⟨hcontent, x, hx, hkx⟩
    have hne : q.2 ≠ [] := by
      rw [hcontent]
      intro hempty
      have : x ∈ ms.filter (fun y =>
          (y.relative_path, y.line_number) = q.1) :=
        List.mem_filter.mpr ⟨hx, by simp [hkx]⟩
      rw [hempty] at this
      cases this
    have hfe : ms.filter (fun y => (y.relative_path, y.line_number) = q.1)
        = ms.filter (fun m' =>
          m'.relative_path = q.1.1 ∧ m'.line_number = q.1.2) := by
      apply List.filter_congr
      intro y _
      simp [Prod.ext_iff]
    refine ⟨?_, ?_⟩
    · rw [mkLineInfo_positions hne, hcontent, hfe]
    · rw [mkLineInfo_positions hne]
      intro hh
      exact hne (List.map_eq_nil_iff.mp hh)
  refine ⟨?_, ?_, ?_, ?_, ?_, ?_⟩
  · rw [consolidate_matches_eq]
    have h := @sortBy_pairwise ConsolidatedMatch
      (fun a b => fileStem a.file_path ≤ fileStem b.file_path)
      (by intro a b c hab hbc
          simp only [decide_eq_true_eq] at *
          exact le_trans hab hbc)
      (by intro a b
          rcases le_total (fileStem a.file_path) (fileStem b.file_path) with
            h | h
          · exact Or.inl (by simpa using h)
          · exact Or.inr (by simpa using h))
      ((groupByKey (fun m => m.relative_path) ms).map (mkConsolidated ms))
    exact h.imp (fun hh => of_decide_eq_true hh)
  · intro c hc
    rcases (hmem_out c).mp hc with ⟨p, _, he⟩
    subst he
    show List.Pairwise _ (sortBy _ _)
    have h := @sortBy_pairwise LineInfo
      (fun a b => a.line_number ≤ b.line_number)
      (by intro a b c hab hbc
          simp only [decide_eq_true_eq] at *
          omega)
      (by intro a b
          rcases Nat.le_total a.line_number b.line_number with h | h
          · exact Or.inl (by simpa using h)
          · exact Or.inr (by simpa using h))
      (((groupByKey (fun m => (m.relative_path, m.line_number)) ms).filter
        (fun q => q.1.1 = p.1)).map (fun q => mkLineInfo q.2))
    exact h.imp (fun hh => of_decide_eq_true hh)
  · rw [consolidate_matches_eq]
    have hperm : ((sortBy (fun a b : ConsolidatedMatch =>
          fileStem a.file_path ≤ fileStem b.file_path)
        ((groupByKey (fun m => m.relative_path) ms).map
          (mkConsolidated ms))).map ConsolidatedMatch.file_path).Perm
        (((groupByKey (fun m => m.relative_path) ms).map
          (mkConsolidated ms)).map ConsolidatedMatch.file_path) :=
      (sortBy_perm _ _).map _
    rw [hperm.nodup_iff, List.map_map]
    have : (ConsolidatedMatch.file_path ∘ mkConsolidated ms)
        = Prod.fst := by
      funext p
      rfl
    rw [this]
    exact groupByKey_keys_nodup _ ms
  · intro p
    rw [consolidate_matches_eq]
    have hperm : ((sortBy (fun a b : ConsolidatedMatch =>
          fileStem a.file_path ≤ fileStem b.file_path)
        ((groupByKey (fun m => m.relative_path) ms).map
          (mkConsolidated ms))).map ConsolidatedMatch.file_path).Perm
        (((groupByKey (fun m => m.relative_path) ms).map
          (mkConsolidated ms)).map ConsolidatedMatch.file_path) :=
      (sortBy_perm _ _).map _
    rw [hperm.mem_iff, List.map_map]
    have hcomp : (ConsolidatedMatch.file_path ∘ mkConsolidated ms)
        = Prod.fst := by
      funext q
      rfl
    rw [hcomp]
    exact groupByKey_mem_keys _ ms p
  · intro c hc li hli
    rcases (hmem_out c).mp hc with ⟨p, _, he⟩
    subst he
    rcases (hline_mem p li).mp hli with ⟨q, hq, hq1, he⟩
    subst he
    rcases hgroup_pos q hq with ⟨hpos, hne⟩
    refine ⟨q.1.2, ?_, hne⟩
    rw [hpos]
    congr 1
    apply List.filter_congr
    intro y _
    rw [hq1]
    rfl
  · intro m hm
    have hkey : m.relative_path ∈
        (groupByKey (fun m' => m'.relative_path) ms).map Prod.fst :=
      (groupByKey_mem_keys _ ms m.relative_path).mpr ⟨m, hm, rfl⟩
    rcases List.mem_map.mp hkey with ⟨p, hp, hfst⟩
    refine ⟨mkConsolidated ms p, (hmem_out _).mpr ⟨p, hp, rfl⟩, hfst, ?_⟩
    have hkey2 : (m.relative_path, m.line_number) ∈
        (groupByKey (fun m' => (m'.relative_path, m'.line_number)) ms).map
          Prod.fst :=
      (groupByKey_mem_keys _ ms _).mpr ⟨m, hm, rfl⟩
    rcases List.mem_map.mp hkey2 with ⟨q, hq, hfst2⟩
    refine ⟨mkLineInfo q.2, (hline_mem p _).mpr
      ⟨q, hq, by rw [hfst2, hfst], rfl⟩, ?_, ?_⟩
    · rcases hgroup_pos q hq with ⟨hpos, _⟩
      rw [hpos]
      congr 1
      apply List.filter_congr
      intro y _
      rw [hfst2]
    · rcases hgroup_pos q hq with ⟨hpos, _⟩
      rw [hpos]
      have : m ∈ ms.filter (fun m' =>
          m'.relative_path = q.1.1 ∧ m'.line_number = q.1.2) := by
        refine List.mem_filter.mpr ⟨hm, ?_⟩
        rw [hfst2]
        simp
      exact List.mem_map_of_mem BackPopulateMatch.position this

/-- C7 witness: properties evaluated at the two-document example — the
output paths are exactly the two inputs', duplicate-free, and the groups
come out in case-sensitive stem order. -/
theorem c7_consolidate_properties_witness :
    ((consolidate_matches [c7MatchA, c7MatchB]).map
        ConsolidatedMatch.file_path).Nodup ∧
    ("apple.md".toList ∈ (consolidate_matches [c7MatchA, c7MatchB]).map
        ConsolidatedMatch.file_path) :=
  ⟨(c7_consolidate_properties [c7MatchA, c7MatchB]).2.2.1,
   ((c7_consolidate_properties [c7MatchA, c7MatchB]).2.2.2.1
       ("apple.md".toList)).mpr ⟨c7MatchA, by decide, by decide⟩⟩

/-! ## Highlighting (`src/back_populate.rs`, `highlight_matches`) -/

/-- Rust `str::is_char_boundary` on the byte index `i` (UTF-8 byte
positions over the character list; `i = 0` and `i = len` are
boundaries). -/
def isCharBoundary : Str → Nat → Bool
  | _, 0 => true
  | [], _ + 1 => false
  | c :: rest, i + 1 =>
    if c.utf8Size ≤ i + 1 then isCharBoundary rest (i + 1 - c.utf8Size)
    else false

/-- The byte slice `&text[a..b]` (on byte-boundary arguments). -/
def sliceBytes : Str → Nat → Nat → Str
  | [], _, _ => []
  | c :: rest, a, b =>
    if c.utf8Size ≤ a then sliceBytes rest (a - c.utf8Size) (b - c.utf8Size)
    else if c.utf8Size ≤ b then c :: sliceBytes rest 0 (b - c.utf8Size)
    else []

/-- The opening highlight marker of `highlight_matches`. -/
def openMarker : Str := "<span style=\"color: red;\">".toList

/-- The closing highlight marker of `highlight_matches`. -/
def closeMarker : Str := "</span>".toList

/-- The loop of `highlight_matches` over the sorted positions.  A Rust
panic — the slice `&text[last_end..start]` with `last_end > start`,
which the source can reach after an overlapping span — is modelled as
`none`; the boundary-check bail-out returns the ORIGINAL text
(`some text`), exactly as the source's `return text.to_string()`. -/
def highlightGo (text : Str) (match_length : Nat) :
    List Nat → Nat → Str → Option Str
  | [], last_end, acc =>
    some (acc ++ sliceBytes text last_end (byteLen text))
  | start :: rest, last_end, acc =>
    if ¬ (isCharBoundary text start = true ∧
        isCharBoundary text (start + match_length) = true)
    then some text
    else if last_end > start then none
    else highlightGo text match_length rest (start + match_length)
      (acc ++ sliceBytes text last_end start ++ openMarker ++
        sliceBytes text start (start + match_length) ++ closeMarker)

/-- `highlight_matches` from `src/back_populate.rs` (lines 441-475):
sort the byte positions ascending, then wrap each span
`[start, start+match_length)` in the marker, validating UTF-8 boundaries
first. -/
def highlight_matches (text : Str) (positions : List Nat)
    (match_length : Nat) : Option Str :=
  highlightGo text match_length (sortBy (fun a b => a ≤ b) positions) 0 []

/-- The highlighted string as the spec describes it: for each offset in
ascending order, the text since the previous span's end, the opening
marker, the span, the closing marker; then the tail of the line. -/
def specHighlightGo (text : Str) (match_length : Nat) :
    List Nat → Nat → Str
  | [], last_end => sliceBytes text last_end (byteLen text)
  | start :: rest, last_end =>
    sliceBytes text last_end start ++ openMarker ++
      sliceBytes text start (start + match_length) ++ closeMarker ++
      specHighlightGo text match_length rest (start + match_length)

theorem highlightGo_ok (text : Str) (L : Nat) :
    ∀ (ps : List Nat) (last_end : Nat) (acc : Str),
      List.Pairwise (fun p q => p + L ≤ q) ps →
      (∀ p ∈ ps, last_end ≤ p) →
      (∀ p ∈ ps, isCharBoundary text p = true ∧
        isCharBoundary text (p + L) = true) →
      highlightGo text L ps last_end acc
        = some (acc ++ specHighlightGo text L ps last_end) := by
  intro ps
  induction ps with
  | nil => intro last_end acc _ _ _; rfl
  | cons start rest ih =>
    intro last_end acc hsep hle hok
    have hb := hok start (List.mem_cons_self start rest)
    show (if ¬ (isCharBoundary text start = true ∧
        isCharBoundary text (start + L) = true) then some text
      else if last_end > start then none else _) = _
    rw [if_neg (by simp [hb.1, hb.2])]
    rw [if_neg (by
      have := hle start (List.mem_cons_self start rest)
      omega)]
    rw [ih (start + L) _
      (List.pairwise_cons.mp hsep).2
      (fun p hp => (List.pairwise_cons.mp hsep).1 p hp)
      (fun p hp => hok p (List.mem_cons_of_mem start hp))]
    simp [specHighlightGo, List.append_assoc]

theorem highlightGo_fail (text : Str) (L : Nat) :
    ∀ (ps : List Nat) (last_end : Nat) (acc : Str),
      List.Pairwise (fun p q => p + L ≤ q) ps →
      (∀ p ∈ ps, last_end ≤ p) →
      (∃ p ∈ ps, ¬ (isCharBoundary text p = true ∧
        isCharBoundary text (p + L) = true)) →
      highlightGo text L ps last_end acc = some text := by
  intro ps
  induction ps with
  | nil => intro _ _ _ _ h; simp at h
  | cons start rest ih =>
    intro last_end acc hsep hle hex
    by_cases hb : isCharBoundary text start = true ∧
        isCharBoundary text (start + L) = true
    · show (if ¬ _ then some text else if last_end > start then none
        else _) = _
      rw [if_neg (by simp [hb.1, hb.2])]
      rw [if_neg (by
        have := hle start (List.mem_cons_self start rest)
        omega)]
      rcases hex with ⟨p, hp, hnp⟩
      rcases List.mem_cons.mp hp with he | he
      · exact absurd (he ▸ hb) hnp
      · exact ih (start + L) _
          (List.pairwise_cons.mp hsep).2
          (fun q hq => (List.pairwise_cons.mp hsep).1 q hq)
          ⟨p, he, hnp⟩
    · show (if ¬ _ then some text else _) = _
      rw [if_pos hb]

/-- C6 counterexample: the claim says the function never panics on any
input whose offsets lie within the string.  With the ASCII line `abcdef`
and the overlapping in-bounds offsets `[0, 1]` at match length 3 (every
offset and span end a valid char boundary), the source reaches
`&text[last_end..start]` with `last_end = 3 > 1 = start` and panics
(`none` in this model). -/
theorem c6_counterexample :
    highlight_matches ("abcdef".toList) [0, 1] 3 = none ∧
    (∀ p ∈ [0, 1], isCharBoundary ("abcdef".toList) p = true ∧
      isCharBoundary ("abcdef".toList) (p + 3) = true) := by
  refine ⟨by decide, by decide⟩

/-- C6 (amended): when the sorted offsets are non-overlapping (each at
least `match_length` after the previous), `highlight_matches` processes
them in ascending order wrapping each span with the marker; if any
offset or span end fails the UTF-8 boundary check it returns the
original line unmodified (never a partially highlighted one); and it
never panics.  (Without the non-overlap hypothesis the function can
panic, as the counterexample shows.) -/
theorem c6_highlight_matches (text : Str) (ps : List Nat) (L : Nat)
    (hsep : List.Pairwise (fun p q => p + L ≤ q)
      (sortBy (fun a b => a ≤ b) ps)) :
    ((∃ p ∈ ps, ¬ (isCharBoundary text p = true ∧
        isCharBoundary text (p + L) = true)) →
      highlight_matches text ps L = some text) ∧
    ((∀ p ∈ ps, isCharBoundary text p = true ∧
        isCharBoundary text (p + L) = true) →
      highlight_matches text ps L
        = some (specHighlightGo text L (sortBy (fun a b => a ≤ b) ps) 0)) ∧
    (∃ r, highlight_matches text ps L = some r) := by
  have hzero : ∀ p ∈ sortBy (fun a b : Nat => a ≤ b) ps, 0 ≤ p :=
    fun p _ => Nat.zero_le p
  refine ⟨?_, ?_, ?_⟩
  · intro ⟨p, hp, hnp⟩
    exact highlightGo_fail text L _ 0 [] hsep hzero
      ⟨p, mem_sortBy.mpr hp, hnp⟩
  · intro hok
    have := highlightGo_ok text L (sortBy (fun a b => a ≤ b) ps) 0 [] hsep
      hzero (fun p hp => hok p (mem_sortBy.mp hp))
    rw [highlight_matches, this]
    simp
  · by_cases hex : ∃ p ∈ ps, ¬ (isCharBoundary text p = true ∧
        isCharBoundary text (p + L) = true)
    · exact ⟨text, highlightGo_fail text L _ 0 [] hsep hzero
        (by rcases hex with ⟨p, hp, hnp⟩
            exact ⟨p, mem_sortBy.mpr hp, hnp⟩)⟩
    · refine ⟨specHighlightGo text L (sortBy (fun a b => a ≤ b) ps) 0, ?_⟩
      have hok : ∀ p ∈ ps, isCharBoundary text p = true ∧
          isCharBoundary text (p + L) = true := by
        intro p hp
        by_cases hb : isCharBoundary text p = true ∧
            isCharBoundary text (p + L) = true
        · exact hb
        · exact absurd ⟨p, hp, hb⟩ hex
      have := highlightGo_ok text L (sortBy (fun a b => a ≤ b) ps) 0 []
        hsep hzero (fun p hp => hok p (mem_sortBy.mp hp))
      rw [highlight_matches, this]
      simp

/-- C6 witness: on `aé` with offset 1 and length 1 the span end falls
inside the two-byte `é`, so the boundary check fails and the ORIGINAL
line comes back; on `abc` with offset 0 the span is wrapped in the
marker. -/
theorem c6_highlight_matches_witness :
    highlight_matches ("aé".toList) [1] 1 = some ("aé".toList) ∧
    highlight_matches ("abc".toList) [0] 1
      = some (("<span style=\"color: red;\">a</span>bc").toList) := by
  constructor
  · exact (c6_highlight_matches ("aé".toList) [1] 1
      (by rw [show sortBy (fun a b : Nat => a ≤ b) [1] = [1] from rfl]
          exact List.pairwise_singleton _ _)).1
      ⟨1, by decide, by decide⟩
  · exact ((c6_highlight_matches ("abc".toList) [0] 1
      (by rw [show sortBy (fun a b : Nat => a ≤ b) [0] = [0] from rfl]
          exact List.pairwise_singleton _ _)).2.1
      (by decide)).trans (by decide)

/-! ## Wikilink extraction (`src/wikilink.rs`,
`extract_wikilinks_from_content`) -/

/-- Rust `str::trim` (both ends, whitespace characters). -/
def trimStr (s : Str) : Str :=
  ((s.dropWhile Char.isWhitespace).reverse.dropWhile Char.isWhitespace).reverse

/-- `parse_wikilink` from `src/wikilink.rs` (lines 284-344): consume
characters after an opening `[[`, handling `\\`-escapes, the first
unescaped (or escaped) `|` as the alias separator, and `]]` as the
closing delimiter; returns the parsed link and the characters after the
closing `]]`, or `none` when the input ends before a proper close. -/
def parse_wikilink : Str → Str → Bool → Str → Bool → Option (Wikilink × Str)
  | [], _, _, _, _ => none
  | c :: rest, link_text, al, target, escaped =>
    if escaped then
      if c = '|' ∧ al = false then
        parse_wikilink rest [] true (trimStr link_text) false
      else parse_wikilink rest (link_text ++ [c]) al target false
    else if c = '\\' then parse_wikilink rest link_text al target true
    else if c = '|' ∧ al = false then
      parse_wikilink rest [] true (trimStr link_text) false
    else if c = ']' then
      if rest.head? = some ']' then
        some ({ display_text := trimStr link_text,
                target := if al then target else trimStr link_text,
                is_alias := al }, rest.tail)
      else parse_wikilink rest (link_text ++ [']']) al target false
    else parse_wikilink rest (link_text ++ [c]) al target false

theorem parse_wikilink_length :
    ∀ (s lt : Str) (al : Bool) (tg : Str) (esc : Bool) (w : Wikilink)
      (rem : Str),
      parse_wikilink s lt al tg esc = some (w, rem) →
      rem.length < s.length := by
  intro s
  induction s with
  | nil => intro lt al tg esc w rem h; cases h
  | cons c rest ih =>
    intro lt al tg esc w rem h
    simp only [parse_wikilink] at h
    by_cases hesc : esc = true
    · rw [if_pos hesc] at h
      by_cases hp : c = '|' ∧ al = false
      · rw [if_pos hp] at h
        exact Nat.lt_succ_of_lt (ih _ _ _ _ _ _ h)
      · rw [if_neg hp] at h
        exact Nat.lt_succ_of_lt (ih _ _ _ _ _ _ h)
    · rw [if_neg hesc] at h
      by_cases hb : c = '\\'
      · rw [if_pos hb] at h
        exact Nat.lt_succ_of_lt (ih _ _ _ _ _ _ h)
      · rw [if_neg hb] at h
        by_cases hp : c = '|' ∧ al = false
        · rw [if_pos hp] at h
          exact Nat.lt_succ_of_lt (ih _ _ _ _ _ _ h)
        · rw [if_neg hp] at h
          by_cases hr : c = ']'
          · rw [if_pos hr] at h
            by_cases hh : rest.head? = some ']'
            · rw [if_pos hh] at h
              have hrem : rem = rest.tail :=
                (congrArg Prod.snd (Option.some.inj h)).symm
              rw [hrem]
              have := @List.length_tail _ rest
              simp only [List.length_cons]
              omega
            · rw [if_neg hh] at h
              exact Nat.lt_succ_of_lt (ih _ _ _ _ _ _ h)
          · rw [if_neg hr] at h
            exact Nat.lt_succ_of_lt (ih _ _ _ _ _ _ h)

/-- Fuel-driven worker for the scan loop of
`extract_wikilinks_from_content` (lines 246-265).  `prev` is the
character immediately before the current position (`is_previous_char`);
on `[[` the parse is skipped entirely when `prev` is `'!'` (an image
embed), otherwise `parse_wikilink` runs and scanning resumes after the
closing `]]` (whose last consumed character is `']'`); a failed parse
exhausts the iterator.  The fuel is instantiated with the input length. -/
def extractGo : Nat → Option Char → Str → List Wikilink
  | 0, _, _ => []
  | _ + 1, _, [] => []
  | fuel + 1, prev, c :: rest =>
    if c = '[' ∧ rest.head? = some '[' then
      if prev = some '!' then extractGo fuel (some '[') rest.tail
      else
        match parse_wikilink rest.tail [] false [] false with
        | some (w, rem) => w :: extractGo fuel (some ']') rem
        | none => []
    else extractGo fuel (some c) rest

/-- The scan started at an arbitrary previous-character context. -/
def extractFrom (prev : Option Char) (s : Str) : List Wikilink :=
  extractGo s.length prev s

/-- `extract_wikilinks_from_content`: scan from the start of the line
(no previous character). -/
def extract_wikilinks_from_content (content : Str) : List Wikilink :=
  extractFrom none content

theorem extractGo_stable :
    ∀ f₁ f₂ (prev : Option Char) (s : Str), s.length ≤ f₁ →
      s.length ≤ f₂ → extractGo f₁ prev s = extractGo f₂ prev s := by
  intro f₁
  induction f₁ with
  | zero =>
    intro f₂ prev s hs _
    cases s with
    | nil => cases f₂ <;> rfl
    | cons c rest => simp at hs
  | succ n ih =>
    intro f₂ prev s hs hs₂
    cases s with
    | nil => cases f₂ <;> rfl
    | cons c rest =>
      cases f₂ with
      | zero => simp at hs₂
      | succ m =>
        simp only [extractGo]
        by_cases hc : c = '[' ∧ rest.head? = some '['
        · rw [if_pos hc, if_pos hc]
          by_cases hp : prev = some '!'
          · rw [if_pos hp, if_pos hp]
            have := @List.length_tail _ rest
            simp only [List.length_cons] at hs hs₂
            exact ih m _ _ (by omega) (by omega)
          · rw [if_neg hp, if_neg hp]
            cases hparse : parse_wikilink rest.tail [] false [] false with
            | none => rfl
            | some pr =>
              obtain ⟨w, rem⟩ := pr
              have hlen := parse_wikilink_length _ _ _ _ _ _ _ hparse
              have htl := @List.length_tail _ rest
              have htl2 : rest.tail.length ≤ rest.length := by omega
              simp only [List.length_cons] at hs hs₂
              show w :: extractGo n (some ']') rem
                = w :: extractGo m (some ']') rem
              rw [ih m (some ']') rem (by omega) (by omega)]
        · rw [if_neg hc, if_neg hc]
          simp only [List.length_cons] at hs hs₂
          exact ih m _ _ (by omega) (by omega)

theorem extractFrom_skip (rest : Str) :
    extractFrom (some '!') ('[' :: '[' :: rest)
      = extractFrom (some '[') rest := by
  show extractGo (rest.length + 2) (some '!') ('[' :: '[' :: rest) = _
  simp only [extractGo, List.head?_cons, List.tail_cons]
  rw [if_pos trivial]
  exact extractGo_stable (rest.length + 1) rest.length (some '[') rest
    (by omega) (le_refl _)

theorem extractFrom_parse (prev : Option Char) (hprev : ¬ (prev = some '!'))
    (rest : Str) :
    extractFrom prev ('[' :: '[' :: rest)
      = (match parse_wikilink rest [] false [] false with
        | some (w, rem) => w :: extractFrom (some ']') rem
        | none => []) := by
  show extractGo (rest.length + 2) prev ('[' :: '[' :: rest) = _
  simp only [extractGo, List.head?_cons, List.tail_cons]
  rw [if_pos (⟨trivial, trivial⟩ : True ∧ True), if_neg hprev]
  cases hparse : parse_wikilink rest [] false [] false with
  | none => rfl
  | some pr =>
    obtain ⟨w, rem⟩ := pr
    have hlen := parse_wikilink_length _ _ _ _ _ _ _ hparse
    show w :: extractGo (rest.length + 1) (some ']') rem
      = w :: extractFrom (some ']') rem
    rw [extractGo_stable (rest.length + 1) rem.length (some ']') rem
      (by omega) (le_refl _)]
    rfl

theorem extractFrom_through :
    ∀ (l : Str) (prev : Option Char) (c : Char) (rest : Str),
      (∀ x ∈ l ++ [c], ¬ x = '[') →
      extractFrom prev (l ++ c :: rest) = extractFrom (some c) rest := by
  intro l
  induction l with
  | nil =>
    intro prev c rest h
    have hc : ¬ c = '[' := h c (by simp)
    show extractGo (rest.length + 1) prev (c :: rest) = _
    simp only [extractGo]
    rw [if_neg (fun hh => hc hh.1)]
    rfl
  | cons x l' ih =>
    intro prev c rest h
    have hx : ¬ x = '[' := h x (by simp)
    show extractGo ((l' ++ c :: rest).length + 1) prev
      (x :: (l' ++ c :: rest)) = _
    simp only [extractGo]
    rw [if_neg (fun hh => hx hh.1)]
    exact ih (some x) c rest (fun y hy => h y (List.mem_cons_of_mem x hy))

/-- C10: a `[[` occurrence whose immediately preceding character is `!`
is skipped entirely — an image embed with no `[` in its body contributes
nothing to the extracted list, scanning resuming after it — while a `[[`
not preceded by `!` in the same string is parsed normally; shown
generally for the scanner and concretely on the repository's own test
lines (embeds ignored, normal links still extracted). -/
theorem c10_image_embed_exclusion :
    (∀ rest : Str, extractFrom (some '!') ('[' :: '[' :: rest)
        = extractFrom (some '[') rest) ∧
    (∀ (body rest : Str), (∀ x ∈ body, ¬ x = '[') →
      extractFrom (some '!') ('[' :: '[' :: (body ++ ']' :: ']' :: rest))
        = extractFrom (some ']') rest) ∧
    (∀ (prev : Option Char) (rest : Str), ¬ (prev = some '!') →
      extractFrom prev ('[' :: '[' :: rest)
        = (match parse_wikilink rest [] false [] false with
          | some (w, rem) => w :: extractFrom (some ']') rem
          | none => [])) ∧
    extract_wikilinks_from_content
        ("And ![[image.png|500]] plus [[normal link]]".toList)
      = [{ display_text := "normal link".toList,
           target := "normal link".toList, is_alias := false }] ∧
    extract_wikilinks_from_content ("text! ![[image2.jpg]]".toList) = [] ∧
    extract_wikilinks_from_content
        ("This is amazing! [[normal link]]".toList)
      = [{ display_text := "normal link".toList,
           target := "normal link".toList, is_alias := false }] := by
  refine ⟨extractFrom_skip, ?_,
    fun prev rest hprev => extractFrom_parse prev hprev rest,
    by decide, by decide, by decide⟩
  intro body rest hbody
  rw [extractFrom_skip]
  have hsplit : body ++ ']' :: ']' :: rest = (body ++ [']']) ++ ']' :: rest := by
    rw [List.append_assoc]
    rfl
  rw [hsplit]
  apply extractFrom_through
  intro x hx
  rcases List.mem_append.mp hx with h | h
  · rcases List.mem_append.mp h with h | h
    · exact hbody x h
    · have : x = ']' := by simpa using h
      rw [this]
      decide
  · have : x = ']' := by simpa using h
    rw [this]
    decide

/-- C10 witness: the general embed rule applied to the body
`image.png|500` (no bracket inside) of `![[image.png|500]]` — the embed
contributes nothing — and the normal-parse rule applied after a space
(not `!`). -/
theorem c10_image_embed_exclusion_witness :
    extractFrom (some '!')
        ('[' :: '[' :: ("image.png|500".toList ++ ']' :: ']' :: [])) = [] ∧
    extractFrom (some ' ') ('[' :: '[' :: "b]]".toList)
      = [{ display_text := "b".toList, target := "b".toList,
           is_alias := false }] := by
  constructor
  · exact (c10_image_embed_exclusion.2.1 ("image.png|500".toList) []
      (by decide)).trans (by decide)
  · exact (c10_image_embed_exclusion.2.2.1 (some ' ') ("b]]".toList)
      (by decide)).trans (by decide)
